import Mathlib

/-!
Verification of the Bloxorz A* solver (`mycode.py`).

The Python program is shallowly embedded as follows:
* Python strings (the board rows) become `List Char`; `str.replace` becomes
  `strReplace`, `str.find` becomes `findRow`/`List.findIdx?`.
* Python arbitrary-precision ints become `Int`; the float arithmetic of the
  heuristic (`abs(..)/3`, stated by the design document to be real-number
  division) becomes exact `Rat` arithmetic.
* The CPython `heapq` module used by `PriorityQueue` is embedded
  operation-by-operation (`siftdownFuel` = `heapq._siftdown`,
  `siftupLoop` + `siftup` = `heapq._siftup`, `heappush`, `heappop`);
  the bubble-up loops are expressed with an explicit fuel argument that is
  provably sufficient (the loop variable strictly decreases / increases).
* A Python `set` of `State` objects, whose `__eq__`/`__hash__` identify
  states by the integer `(ySize*xSize)*orient + xSize*y + x`, is embedded as
  a `Finset Int` of exactly those integers.
* The `while` loop of `solve` becomes `solveAux` with a fuel argument;
  `solve` runs it with fuel `solveMeasure`, which is proved sufficient
  (theorems below never reach the fuel-exhaustion branch under the
  invariants established by construction).
-/

namespace Bloxorz

/-- Python class `State`: x/y coordinates of the top-leftmost occupied cell
and the orientation (0 standing, 1 lying along x, 2 lying along y). -/
structure State where
  x_cor : Int
  y_cor : Int
  orient : Int
deriving DecidableEq

/-- `State.__hash__`: `(ySize * xSize * orient) + (xSize * y_cor) + x_cor`,
with the class-shared grid sizes passed explicitly. -/
def State.hashVal (xSize ySize : Int) (s : State) : Int :=
  ySize * xSize * s.orient + xSize * s.y_cor + s.x_cor

/-- `State.__eq__`: two states are equal iff their hash values coincide. -/
def State.eqv (xSize ySize : Int) (s t : State) : Bool :=
  decide (State.hashVal xSize ySize s = State.hashVal xSize ySize t)

/-- Python class `Node`: `costGuess` is g+h, `path` is the action list from
the initial state. -/
structure Node where
  costGuess : Rat
  state : State
  path : List Char
deriving DecidableEq

/-- `Node.__lt__`: comparison by `costGuess`, used by the heap. -/
def Node.lt (a b : Node) : Bool := decide (a.costGuess < b.costGuess)

/-- Default node used only as the (never relevant) `getD` fallback value in
the heap index arithmetic. -/
def dNode : Node := ⟨0, ⟨0, 0, 0⟩, []⟩

/-- CPython `heapq._siftdown(heap, startpos, pos)`: bubble `newitem` up from
`pos` toward `startpos`.  The loop variable `pos` strictly decreases, so fuel
`pos` (supplied by the wrappers) is always sufficient. -/
def siftdownFuel : Nat → Node → List Node → Nat → Nat → List Node
  | 0, newitem, heap, _, pos => heap.set pos newitem
  | fuel+1, newitem, heap, startpos, pos =>
    if startpos < pos then
      let parentpos := (pos - 1) / 2
      let parent := heap.getD parentpos dNode
      if Node.lt newitem parent then
        siftdownFuel fuel newitem (heap.set pos parent) startpos parentpos
      else heap.set pos newitem
    else heap.set pos newitem

/-- CPython `heapq.heappush`: append then sift down from the last index. -/
def heappush (heap : List Node) (item : Node) : List Node :=
  siftdownFuel heap.length item (heap ++ [item]) 0 heap.length

/-- The while-loop of CPython `heapq._siftup`: move the smaller child into
the hole at `pos` until a leaf is reached; returns the final heap and hole
position.  `pos` strictly increases and is bounded by the (constant) length,
so fuel `heap.length` is always sufficient. -/
def siftupLoop : Nat → List Node → Nat → List Node × Nat
  | 0, heap, pos => (heap, pos)
  | fuel+1, heap, pos =>
    if 2 * pos + 1 < heap.length then
      let childpos :=
        if 2 * pos + 2 < heap.length &&
           !(Node.lt (heap.getD (2 * pos + 1) dNode) (heap.getD (2 * pos + 2) dNode))
        then 2 * pos + 2 else 2 * pos + 1
      siftupLoop fuel (heap.set pos (heap.getD childpos dNode)) childpos
    else (heap, pos)

/-- CPython `heapq._siftup(heap, pos)`: run the leaf-ward loop, place
`newitem` in the final hole, then bubble it up with `_siftdown`. -/
def siftup (heap : List Node) (pos : Nat) : List Node :=
  let newitem := heap.getD pos dNode
  let r := siftupLoop heap.length heap pos
  siftdownFuel r.2 newitem (r.1.set r.2 newitem) pos r.2

/-- CPython `heapq.heappop`: pop the last element; if the heap is still
non-empty, move it to the root and sift up; `none` on an empty heap (where
CPython raises `IndexError`). -/
def heappop (heap : List Node) : Option (Node × List Node) :=
  match heap.getLast? with
  | none => none
  | some lastelt =>
    let rest := heap.dropLast
    if rest.isEmpty then some (lastelt, [])
    else some (rest.getD 0 dNode, siftup (rest.set 0 lastelt) 0)

/-- Python class `PriorityQueue`: a heapq-managed list plus a counter. -/
structure PriorityQueue where
  data : List Node
  counter : Int
deriving DecidableEq

/-- `PriorityQueue.push`. -/
def PriorityQueue.push (q : PriorityQueue) (item : Node) : PriorityQueue :=
  ⟨heappush q.data item, q.counter + 1⟩

/-- `PriorityQueue.pop` (returns the popped node and the new queue). -/
def PriorityQueue.popMin (q : PriorityQueue) : Option (Node × PriorityQueue) :=
  (heappop q.data).map fun p => (p.1, ⟨p.2, q.counter - 1⟩)

/-- `PriorityQueue.not_empty`: `counter > 0`. -/
def PriorityQueue.not_empty (q : PriorityQueue) : Bool := decide (q.counter > 0)

/-- `Bloxorz.is_goal`: standing on the goal cell. -/
def is_goal (goalX goalY : Int) (s : State) : Bool :=
  decide (s.orient = 0 ∧ s.x_cor = goalX ∧ s.y_cor = goalY)

/-- `Bloxorz.heuristic`: `abs(goalX - x)/3 + abs(goalY - y)/3` with exact
(real-number) division. -/
def heuristic (goalX goalY : Int) (s : State) : Rat :=
  ((|goalX - s.x_cor| : Int) : Rat) / 3 + ((|goalY - s.y_cor| : Int) : Rat) / 3

/-- `Bloxorz.is_safe`: in-range and the character is `'O'` or `'G'`.
The range checks mirror `len(self.map) > y >= 0 and len(self.map[y]) > x >= 0`. -/
def is_safe (m : List (List Char)) (x y : Int) : Bool :=
  if 0 ≤ y ∧ y < (m.length : Int) ∧ 0 ≤ x ∧ x < ((m.getD y.toNat []).length : Int) then
    decide ((m.getD y.toNat []).getD x.toNat ' ' = 'O' ∨ (m.getD y.toNat []).getD x.toNat ' ' = 'G')
  else false

/-- `Bloxorz.successors`: the Python dict in its insertion order
(`'U'`, `'D'`, `'L'`, `'R'`) as an association list. -/
def successors (m : List (List Char)) (s : State) : List (Char × State) :=
  if s.orient = 0 then
    (if is_safe m s.x_cor (s.y_cor - 2) && is_safe m s.x_cor (s.y_cor - 1) then
      [('U', ⟨s.x_cor, s.y_cor - 2, 2⟩)] else []) ++
    (if is_safe m s.x_cor (s.y_cor + 1) && is_safe m s.x_cor (s.y_cor + 2) then
      [('D', ⟨s.x_cor, s.y_cor + 1, 2⟩)] else []) ++
    (if is_safe m (s.x_cor - 2) s.y_cor && is_safe m (s.x_cor - 1) s.y_cor then
      [('L', ⟨s.x_cor - 2, s.y_cor, 1⟩)] else []) ++
    (if is_safe m (s.x_cor + 1) s.y_cor && is_safe m (s.x_cor + 2) s.y_cor then
      [('R', ⟨s.x_cor + 1, s.y_cor, 1⟩)] else [])
  else if s.orient = 1 then
    (if is_safe m s.x_cor (s.y_cor - 1) && is_safe m (s.x_cor + 1) (s.y_cor - 1) then
      [('U', ⟨s.x_cor, s.y_cor - 1, 1⟩)] else []) ++
    (if is_safe m s.x_cor (s.y_cor + 1) && is_safe m (s.x_cor + 1) (s.y_cor + 1) then
      [('D', ⟨s.x_cor, s.y_cor + 1, 1⟩)] else []) ++
    (if is_safe m (s.x_cor - 1) s.y_cor then
      [('L', ⟨s.x_cor - 1, s.y_cor, 0⟩)] else []) ++
    (if is_safe m (s.x_cor + 2) s.y_cor then
      [('R', ⟨s.x_cor + 2, s.y_cor, 0⟩)] else [])
  else
    (if is_safe m s.x_cor (s.y_cor - 1) then
      [('U', ⟨s.x_cor, s.y_cor - 1, 0⟩)] else []) ++
    (if is_safe m s.x_cor (s.y_cor + 2) then
      [('D', ⟨s.x_cor, s.y_cor + 2, 0⟩)] else []) ++
    (if is_safe m (s.x_cor - 1) s.y_cor && is_safe m (s.x_cor - 1) (s.y_cor + 1) then
      [('L', ⟨s.x_cor - 1, s.y_cor, 2⟩)] else []) ++
    (if is_safe m (s.x_cor + 1) s.y_cor && is_safe m (s.x_cor + 1) (s.y_cor + 1) then
      [('R', ⟨s.x_cor + 1, s.y_cor, 2⟩)] else [])

/-- Replay an action list through `successors` exactly as
`Bloxorz.print_result` does with `self.successors(current_state)[action]`;
`none` when some action key is absent. -/
def run (m : List (List Char)) : State → List Char → Option State
  | s, [] => some s
  | s, a :: p =>
    match (successors m s).lookup a with
    | none => none
    | some t => run m t p

/-- Some action sequence leads from `s` to `t`. -/
def Reach (m : List (List Char)) (s t : State) : Prop :=
  ∃ p, run m s p = some t

/-- Length of a shortest action sequence from `s` to `t` (`0` if unreachable,
via `Nat.sInf` of the empty set). -/
noncomputable def dist (m : List (List Char)) (s t : State) : Nat :=
  sInf {n | ∃ p, run m s p = some t ∧ p.length = n}

/-- Length of a shortest action sequence from `s` to any state satisfying
`is_goal` — the quantity the optimality property compares against. -/
noncomputable def goalDist (m : List (List Char)) (gX gY : Int) (s : State) : Nat :=
  sInf {n | ∃ p t, run m s p = some t ∧ is_goal gX gY t = true ∧ p.length = n}

/-- States whose coordinates index an existing board cell and whose
orientation is one of the three legal values: every state the search ever
stores is of this shape. -/
def InDomM (m : List (List Char)) (s : State) : Prop :=
  0 ≤ s.y_cor ∧ s.y_cor < (m.length : Int) ∧
  0 ≤ s.x_cor ∧ s.x_cor < ((m.getD s.y_cor.toNat []).length : Int) ∧
  (s.orient = 0 ∨ s.orient = 1 ∨ s.orient = 2)

/-- All states indexing an existing board cell (used only for the
termination measure of the search loop). -/
def domStates (m : List (List Char)) : List State :=
  (List.range m.length).flatMap fun y =>
    (List.range (m.getD y []).length).flatMap fun x =>
      (List.range 3).map fun o => ⟨Int.ofNat x, Int.ofNat y, Int.ofNat o⟩

/-- Hash values of all states indexing an existing board cell. -/
def domHashes (m : List (List Char)) (xS yS : Int) : Finset Int :=
  ((domStates m).map (State.hashVal xS yS)).toFinset

/-- The engine: `self.map`, `self.closed`, `self.queue`, the class-shared
`State.xSize`/`State.ySize`, `self.goalX`/`self.goalY`, `self.initial`. -/
structure Engine where
  map : List (List Char)
  closed : Finset Int
  queue : PriorityQueue
  xSize : Int
  ySize : Int
  goalX : Int
  goalY : Int
  initial : State
deriving DecidableEq

/-- Python `str.find(c)` for a single character: index of the first
occurrence, `none` where Python returns `-1`. -/
def findCol (c : Char) : List Char → Option Nat
  | [] => none
  | d :: l => if d = c then some 0 else (findCol c l).map (· + 1)

/-- Python's per-row scan `for i in ...: res = self.map[i].find(c)`:
first row containing `c`, together with the first column of `c` in it. -/
def findRow (c : Char) : List (List Char) → Option (Nat × Nat)
  | [] => none
  | r :: rs =>
    match findCol c r with
    | some j => some (0, j)
    | none => (findRow c rs).map fun p => (p.1 + 1, p.2)

/-- Python `str.replace(pat, repl)`: replace non-overlapping occurrences left
to right (fuel variant; one character is consumed per step, so fuel
`l.length` suffices for a non-empty pattern). -/
def strReplaceFuel : Nat → List Char → List Char → List Char → List Char
  | 0, _, _, l => l
  | fuel+1, pat, repl, l =>
    if pat.isPrefixOf l then repl ++ strReplaceFuel fuel pat repl (l.drop pat.length)
    else
      match l with
      | [] => []
      | a :: l' => a :: strReplaceFuel fuel pat repl l'

/-- Python `str.replace(pat, repl)`. -/
def strReplace (pat repl l : List Char) : List Char :=
  strReplaceFuel l.length pat repl l

/-- `Bloxorz.__init__`: record the board, find the goal (`'G'`) and the start
(`'S'`), derive the start orientation from the adjacency of the `'S'`
markers, rewrite the `'S'` cells to `'0'`, and push the initial node.
Returns `none` for boards the Python constructor cannot process (empty
input, no `'G'`, no `'S'` — the design document's `MalformedBoard`). -/
def initEngine (input : List (List Char)) : Option Engine :=
  match input with
  | [] => none
  | r0 :: _ =>
    let xS : Int := (r0.length : Int)
    let yS : Int := (input.length : Int)
    match findRow 'G' input with
    | none => none
    | some gp =>
      match findRow 'S' input with
      | none => none
      | some sp =>
        let gx : Int := (gp.2 : Int)
        let gy : Int := (gp.1 : Int)
        let sy := sp.1
        let sx := sp.2
        let row := input.getD sy []
        if sx + 1 < row.length ∧ row.getD (sx + 1) ' ' = 'S' then
          let m := input.set sy (strReplace ['S', 'S'] ['0', '0'] row)
          let ini : State := ⟨(sx : Int), (sy : Int), 1⟩
          some ⟨m, ∅, PriorityQueue.push ⟨[], 0⟩ ⟨heuristic gx gy ini, ini, []⟩,
            xS, yS, gx, gy, ini⟩
        else if sy + 1 < input.length ∧ (input.getD (sy + 1) []).getD sx ' ' = 'S' then
          let m := (input.set sy (strReplace ['S'] ['0'] row)).set (sy + 1)
            (strReplace ['S'] ['0'] (input.getD (sy + 1) []))
          let ini : State := ⟨(sx : Int), (sy : Int), 2⟩
          some ⟨m, ∅, PriorityQueue.push ⟨[], 0⟩ ⟨heuristic gx gy ini, ini, []⟩,
            xS, yS, gx, gy, ini⟩
        else
          let m := input.set sy (strReplace ['S'] ['0'] row)
          let ini : State := ⟨(sx : Int), (sy : Int), 0⟩
          some ⟨m, ∅, PriorityQueue.push ⟨[], 0⟩ ⟨heuristic gx gy ini, ini, []⟩,
            xS, yS, gx, gy, ini⟩

/-- The `while` loop of `Bloxorz.solve`, with explicit fuel.  Returns the
action path together with the final queue and closed set. -/
def solveAux (m : List (List Char)) (xS yS gX gY : Int) :
    Nat → PriorityQueue → Finset Int → List Char × PriorityQueue × Finset Int
  | 0, q, c => ([], q, c)
  | fuel+1, q, c =>
    if q.not_empty then
      match q.popMin with
      | none => ([], q, c)
      | some (current, q2) =>
        if State.hashVal xS yS current.state ∈ c then
          solveAux m xS yS gX gY fuel q2 c
        else if is_goal gX gY current.state then
          (current.path, q2, c)
        else
          let q3 := (successors m current.state).foldl
            (fun qq av =>
              if State.hashVal xS yS av.2 ∈ c then qq
              else qq.push ⟨((current.path.length + 1 : Nat) : Rat) + heuristic gX gY av.2,
                av.2, current.path ++ [av.1]⟩) q2
          solveAux m xS yS gX gY fuel q3 (insert (State.hashVal xS yS current.state) c)
    else ([], q, c)

/-- Upper bound on the number of loop iterations `solve` can perform:
each iteration pops one node, and nodes are only pushed when a fresh
domain-hash enters the closed set (at most four pushes each time). -/
def solveMeasure (e : Engine) : Nat :=
  e.queue.data.length + 4 * ((domHashes e.map e.xSize e.ySize) \ e.closed).card + 1

/-- `Bloxorz.solve`: run the loop (the fuel `solveMeasure e` is proved
sufficient below); returns the action path and the mutated engine. -/
def solve (e : Engine) : List Char × Engine :=
  let r := solveAux e.map e.xSize e.ySize e.goalX e.goalY (solveMeasure e) e.queue e.closed
  (r.1, { e with queue := r.2.1, closed := r.2.2 })

/-- Cells occupied by a block in state `s`, following the data model of the
design document (one cell standing, two cells lying). -/
def cellsOf (s : State) : List (Int × Int) :=
  if s.orient = 0 then [(s.x_cor, s.y_cor)]
  else if s.orient = 1 then [(s.x_cor, s.y_cor), (s.x_cor + 1, s.y_cor)]
  else [(s.x_cor, s.y_cor), (s.x_cor, s.y_cor + 1)]

/-- Modelled from the spec: the target state of the section 4.2 move table,
ignoring safety (`none` for an unknown action label). -/
def tableMove (s : State) (a : Char) : Option State :=
  if s.orient = 0 then
    if a = 'U' then some ⟨s.x_cor, s.y_cor - 2, 2⟩
    else if a = 'D' then some ⟨s.x_cor, s.y_cor + 1, 2⟩
    else if a = 'L' then some ⟨s.x_cor - 2, s.y_cor, 1⟩
    else if a = 'R' then some ⟨s.x_cor + 1, s.y_cor, 1⟩
    else none
  else if s.orient = 1 then
    if a = 'U' then some ⟨s.x_cor, s.y_cor - 1, 1⟩
    else if a = 'D' then some ⟨s.x_cor, s.y_cor + 1, 1⟩
    else if a = 'L' then some ⟨s.x_cor - 1, s.y_cor, 0⟩
    else if a = 'R' then some ⟨s.x_cor + 2, s.y_cor, 0⟩
    else none
  else
    if a = 'U' then some ⟨s.x_cor, s.y_cor - 1, 0⟩
    else if a = 'D' then some ⟨s.x_cor, s.y_cor + 2, 0⟩
    else if a = 'L' then some ⟨s.x_cor - 1, s.y_cor, 2⟩
    else if a = 'R' then some ⟨s.x_cor + 1, s.y_cor, 2⟩
    else none

/-- Modelled from the spec: an action is available exactly when every cell
the block would occupy after the move is safe, and then leads to the table's
target state. -/
def succSpec (m : List (List Char)) (s : State) (a : Char) : Option State :=
  match tableMove s a with
  | none => none
  | some t => if (cellsOf t).all (fun c => is_safe m c.1 c.2) then some t else none

/-- Character of the original board text at column `x`, row `y`. -/
def cellAt (b : List (List Char)) (x y : Nat) : Char :=
  (b.getD y []).getD x ' '

/-- The board's `'S'` markers form one of the three legal start footprints:
a single cell, two horizontally adjacent cells, or two vertically adjacent
cells. -/
def SConfig (b : List (List Char)) : Prop :=
  ∃ sx sy,
    (∀ x y, cellAt b x y = 'S' ↔ (x = sx ∧ y = sy)) ∨
    (∀ x y, cellAt b x y = 'S' ↔ ((x = sx ∨ x = sx + 1) ∧ y = sy)) ∨
    (∀ x y, cellAt b x y = 'S' ↔ (x = sx ∧ (y = sy ∨ y = sy + 1)))

/-- Every row of the board has length `w`. -/
def Rect (m : List (List Char)) (w : Nat) : Prop :=
  ∀ r ∈ m, r.length = w

/-- The board text contains exactly one `'G'`. -/
def OneGoal (b : List (List Char)) : Prop :=
  (b.map fun r => r.count 'G').sum = 1

/-! ### The binary heap: ordering invariant -/

/-- The binary-heap invariant of CPython heapq: every non-root entry is at
least its parent (comparison on `costGuess`, as in `Node.__lt__`). -/
def HeapInv (l : List Node) : Prop :=
  ∀ i, 0 < i → i < l.length →
    (l.getD ((i - 1) / 2) dNode).costGuess ≤ (l.getD i dNode).costGuess

/-- Intermediate invariant of `_siftdown`: placing `x` at `pos` gives a heap
except possibly the edge into `pos`, and the grandparent of `pos` already
bounds the children of `pos`. -/
def AHeap (l : List Node) (pos : Nat) (x : Node) : Prop :=
  (∀ i, 0 < i → i < l.length → i ≠ pos →
    ((i - 1) / 2 = pos → x.costGuess ≤ (l.getD i dNode).costGuess) ∧
    ((i - 1) / 2 ≠ pos → (l.getD ((i - 1) / 2) dNode).costGuess ≤
      (l.getD i dNode).costGuess)) ∧
  (0 < pos → ∀ c, (c = 2 * pos + 1 ∨ c = 2 * pos + 2) → c < l.length →
    (l.getD ((pos - 1) / 2) dNode).costGuess ≤ (l.getD c dNode).costGuess)

/-- Intermediate invariant of the `_siftup` loop: a heap with a hole at
`pos`, whose grandparent already bounds the children of `pos`. -/
def HoleHeap (l : List Node) (pos : Nat) : Prop :=
  (∀ i, 0 < i → i < l.length → i ≠ pos → (i - 1) / 2 ≠ pos →
    (l.getD ((i - 1) / 2) dNode).costGuess ≤ (l.getD i dNode).costGuess) ∧
  (0 < pos → ∀ c, (c = 2 * pos + 1 ∨ c = 2 * pos + 2) → c < l.length →
    (l.getD ((pos - 1) / 2) dNode).costGuess ≤ (l.getD c dNode).costGuess)

/-- Invariant of the A* loop of `solve`: the queue is a heap of nodes whose
paths replay to their states with the correct cost estimate, only the node of
the initial state carries an empty path, the closed set holds hashes of
expanded in-grid states, every expanded state is a reached non-goal state
whose not-yet-closed successors still have a queue node with optimal length,
and the initial state is closed or still enqueued. -/
structure SearchInv (m : List (List Char)) (xS yS gX gY : Int) (init : State)
    (q : List Node) (c : Finset Int) : Prop where
  heap : HeapInv q
  nodes : ∀ n ∈ q, InDomM m n.state ∧ run m init n.path = some n.state ∧
    n.costGuess = (n.path.length : Rat) + heuristic gX gY n.state
  emptyPath : ∀ n ∈ q, n.path = [] → n.state = init
  closedDom : ∀ hv ∈ c, ∃ u, InDomM m u ∧ State.hashVal xS yS u = hv
  closedProps : ∀ u, InDomM m u → State.hashVal xS yS u ∈ c →
    is_goal gX gY u = false ∧ Reach m init u ∧
      ∀ a v, (a, v) ∈ successors m u → State.hashVal xS yS v ∉ c →
        ∃ n ∈ q, n.state = v ∧ n.path.length = dist m init u + 1
  initNode : State.hashVal xS yS init ∈ c ∨ ∃ n ∈ q, n.state = init ∧ n.path = []

/-- Node pushed by `solve` for a successor `av` of the popped node `cur`. -/
def mkNode (gX gY : Int) (cur : Node) (av : Char × State) : Node :=
  ⟨((cur.path.length + 1 : Nat) : Rat) + heuristic gX gY av.2, av.2, cur.path ++ [av.1]⟩

/-- The data-level successor fold performed by one expansion step of `solve`. -/
def expandFold (m : List (List Char)) (xS yS gX gY : Int) (cur : Node)
    (c : Finset Int) (d : List Node) : List Node :=
  (successors m cur.state).foldl
    (fun dd av => if State.hashVal xS yS av.2 ∈ c then dd else heappush dd (mkNode gX gY cur av)) d

/-- The termination measure of the loop, on raw queue data. -/
def measureD (m : List (List Char)) (xS yS : Int) (d : List Node) (c : Finset Int) : Nat :=
  d.length + 4 * ((domHashes m xS yS) \ c).card + 1

/-- Engine produced by `initEngine` on the board `SOOG`. -/
def eC4 : Engine :=
  ⟨[['0', 'O', 'O', 'G']], ∅,
    ⟨[⟨heuristic 3 0 ⟨0, 0, 0⟩, ⟨0, 0, 0⟩, []⟩], 1⟩, 4, 1, 3, 0, ⟨0, 0, 0⟩⟩

/-- Engine produced by `initEngine` on the board `SOG`. -/
def eSOG : Engine :=
  ⟨[['0', 'O', 'G']], ∅,
    ⟨[⟨heuristic 2 0 ⟨0, 0, 0⟩, ⟨0, 0, 0⟩, []⟩], 1⟩, 3, 1, 2, 0, ⟨0, 0, 0⟩⟩

end Bloxorz

namespace Bloxorz

/-! ### Basic characterizations -/

theorem is_safe_iff (m : List (List Char)) (x y : Int) :
    is_safe m x y = true ↔
      (0 ≤ y ∧ y < (m.length : Int) ∧ 0 ≤ x ∧ x < ((m.getD y.toNat []).length : Int) ∧
        ((m.getD y.toNat []).getD x.toNat ' ' = 'O' ∨ (m.getD y.toNat []).getD x.toNat ' ' = 'G')) := by
  unfold is_safe
  split
  · rename_i hc
    simp only [decide_eq_true_eq]
    exact ⟨fun h => ⟨hc.1, hc.2.1, hc.2.2.1, hc.2.2.2, h⟩, fun h => h.2.2.2.2⟩
  · rename_i hc
    simp only [Bool.false_eq_true, false_iff]
    intro h
    exact hc ⟨h.1, h.2.1, h.2.2.1, h.2.2.2.1⟩

theorem rowlen_of_rect (m : List (List Char)) (w : Nat) (hrect : Rect m w)
    (i : Nat) (hi : i < m.length) : (m.getD i []).length = w := by
  have : m.getD i [] ∈ m := by
    rw [List.getD_eq_getElem m [] hi]
    exact List.getElem_mem hi
  exact hrect _ this

/-- C8: `is_safe(x, y)` is true iff the coordinates are in range and the
character at row `y`, column `x` is `'O'` or `'G'`; out-of-range coordinates
give `false` (the embedding is a total function). -/
theorem C8_is_safe_spec (m : List (List Char)) (w : Nat) (hrect : Rect m w) (x y : Int) :
    is_safe m x y = true ↔
      (0 ≤ x ∧ x < (w : Int) ∧ 0 ≤ y ∧ y < (m.length : Int) ∧
        ((m.getD y.toNat []).getD x.toNat ' ' = 'O' ∨ (m.getD y.toNat []).getD x.toNat ' ' = 'G')) := by
  rw [is_safe_iff]
  constructor
  · rintro ⟨hy0, hyl, hx0, hxr, hc⟩
    have hw : ((m.getD y.toNat []).length : Int) = (w : Int) := by
      rw [rowlen_of_rect m w hrect y.toNat (by omega)]
    exact ⟨hx0, hw ▸ hxr, hy0, hyl, hc⟩
  · rintro ⟨hx0, hxw, hy0, hyl, hc⟩
    have hw : ((m.getD y.toNat []).length : Int) = (w : Int) := by
      rw [rowlen_of_rect m w hrect y.toNat (by omega)]
    exact ⟨hy0, hyl, hx0, hw ▸ hxw, hc⟩

/-- C8 witness. -/
theorem C8_is_safe_spec_witness :
    (∀ r ∈ ([['O', 'G']] : List (List Char)), r.length = 2) ∧
      (is_safe [['O', 'G']] 1 0 = true ↔
        (0 ≤ (1 : Int) ∧ (1 : Int) < ((2 : Nat) : Int) ∧ 0 ≤ (0 : Int) ∧
          (0 : Int) < (([['O', 'G']] : List (List Char)).length : Int) ∧
          ((([['O', 'G']] : List (List Char)).getD (0 : Int).toNat []).getD (1 : Int).toNat ' ' = 'O' ∨
            (([['O', 'G']] : List (List Char)).getD (0 : Int).toNat []).getD (1 : Int).toNat ' ' = 'G'))) :=
  ⟨by decide, C8_is_safe_spec [['O', 'G']] 2 (by unfold Rect; decide) 1 0⟩

/-- C7: the heuristic is `|goalX − x|/3 + |goalY − y|/3` with exact
division (three times the heuristic is exactly `|Δx| + |Δy|`), it does not
depend on the orientation, and it is `0` at the goal coordinates. -/
theorem C7_heuristic_spec (gX gY : Int) :
    (∀ s : State, 3 * heuristic gX gY s = ((|gX - s.x_cor| : Int) : Rat) + ((|gY - s.y_cor| : Int) : Rat))
    ∧ (∀ x y o o' : Int, heuristic gX gY ⟨x, y, o⟩ = heuristic gX gY ⟨x, y, o'⟩)
    ∧ (∀ s : State, s.x_cor = gX → s.y_cor = gY → heuristic gX gY s = 0) := by
  refine ⟨fun s => ?_, fun x y o o' => rfl, fun s hx hy => ?_⟩
  · unfold heuristic
    ring
  · unfold heuristic
    rw [hx, hy]
    simp

/-- C7 witness. -/
theorem C7_heuristic_spec_witness :
    ((⟨5, 7, 2⟩ : State).x_cor = 5 ∧ (⟨5, 7, 2⟩ : State).y_cor = 7) ∧
      heuristic 5 7 ⟨5, 7, 2⟩ = 0 :=
  ⟨⟨rfl, rfl⟩, (C7_heuristic_spec 5 7).2.2 ⟨5, 7, 2⟩ rfl rfl⟩

theorem hashVal_inj (xS yS : Int) (s t : State)
    (hs : 0 ≤ s.x_cor ∧ s.x_cor < xS ∧ 0 ≤ s.y_cor ∧ s.y_cor < yS ∧
      (s.orient = 0 ∨ s.orient = 1 ∨ s.orient = 2))
    (ht : 0 ≤ t.x_cor ∧ t.x_cor < xS ∧ 0 ≤ t.y_cor ∧ t.y_cor < yS ∧
      (t.orient = 0 ∨ t.orient = 1 ∨ t.orient = 2))
    (h : State.hashVal xS yS s = State.hashVal xS yS t) : s = t := by
  obtain ⟨hsx0, hsxl, hsy0, hsyl, hso⟩ := hs
  obtain ⟨htx0, htxl, hty0, htyl, hto⟩ := ht
  have hX : 0 < xS := lt_of_le_of_lt hsx0 hsxl
  have hY : 0 < yS := lt_of_le_of_lt hsy0 hsyl
  unfold State.hashVal at h
  have hs' : yS * xS * s.orient + xS * s.y_cor + s.x_cor
      = s.x_cor + xS * (yS * s.orient + s.y_cor) := by ring
  have ht' : yS * xS * t.orient + xS * t.y_cor + t.x_cor
      = t.x_cor + xS * (yS * t.orient + t.y_cor) := by ring
  rw [hs', ht'] at h
  have hx : s.x_cor = t.x_cor := by
    have h1 : (s.x_cor + xS * (yS * s.orient + s.y_cor)) % xS = s.x_cor := by
      rw [Int.add_mul_emod_self_left]
      exact Int.emod_eq_of_lt hsx0 hsxl
    have h2 : (t.x_cor + xS * (yS * t.orient + t.y_cor)) % xS = t.x_cor := by
      rw [Int.add_mul_emod_self_left]
      exact Int.emod_eq_of_lt htx0 htxl
    rw [← h1, ← h2, h]
  have hk : yS * s.orient + s.y_cor = yS * t.orient + t.y_cor := by
    have := h
    rw [hx] at this
    have h3 : xS * (yS * s.orient + s.y_cor) = xS * (yS * t.orient + t.y_cor) := by omega
    exact mul_left_cancel₀ (ne_of_gt hX) h3
  have hy : s.y_cor = t.y_cor := by
    have h1 : (s.y_cor + yS * s.orient) % yS = s.y_cor := by
      rw [Int.add_mul_emod_self_left]
      exact Int.emod_eq_of_lt hsy0 hsyl
    have h2 : (t.y_cor + yS * t.orient) % yS = t.y_cor := by
      rw [Int.add_mul_emod_self_left]
      exact Int.emod_eq_of_lt hty0 htyl
    have hk' : s.y_cor + yS * s.orient = t.y_cor + yS * t.orient := by omega
    rw [← h1, ← h2, hk']
  have ho : s.orient = t.orient := by
    have h3 : yS * s.orient = yS * t.orient := by omega
    exact mul_left_cancel₀ (ne_of_gt hY) h3
  cases s; cases t
  simp_all

/-- C9: on states whose coordinates are inside the grid and whose
orientation is legal, `State.__eq__` (equality of the custom hashes) holds
exactly for equal `(x, y, orientation)` triples: the hash is collision-free
on the valid domain. -/
theorem C9_state_eq_spec (xS yS : Int) (s t : State)
    (hs : 0 ≤ s.x_cor ∧ s.x_cor < xS ∧ 0 ≤ s.y_cor ∧ s.y_cor < yS ∧
      (s.orient = 0 ∨ s.orient = 1 ∨ s.orient = 2))
    (ht : 0 ≤ t.x_cor ∧ t.x_cor < xS ∧ 0 ≤ t.y_cor ∧ t.y_cor < yS ∧
      (t.orient = 0 ∨ t.orient = 1 ∨ t.orient = 2)) :
    (State.eqv xS yS s t = true ↔ s = t) ∧
      (State.hashVal xS yS s = State.hashVal xS yS t ↔ s = t) := by
  have key : State.hashVal xS yS s = State.hashVal xS yS t ↔ s = t :=
    ⟨hashVal_inj xS yS s t hs ht, fun h => by rw [h]⟩
  refine ⟨?_, key⟩
  unfold State.eqv
  rw [decide_eq_true_eq]
  exact key

/-- C9 witness. -/
theorem C9_state_eq_spec_witness :
    (0 ≤ (⟨1, 0, 2⟩ : State).x_cor ∧ (⟨1, 0, 2⟩ : State).x_cor < 4 ∧
      0 ≤ (⟨1, 0, 2⟩ : State).y_cor ∧ (⟨1, 0, 2⟩ : State).y_cor < 1 ∧
      ((⟨1, 0, 2⟩ : State).orient = 0 ∨ (⟨1, 0, 2⟩ : State).orient = 1 ∨
        (⟨1, 0, 2⟩ : State).orient = 2)) ∧
    ((State.eqv 4 1 ⟨1, 0, 2⟩ ⟨2, 0, 2⟩ = true ↔ (⟨1, 0, 2⟩ : State) = ⟨2, 0, 2⟩) ∧
      (State.hashVal 4 1 ⟨1, 0, 2⟩ = State.hashVal 4 1 ⟨2, 0, 2⟩ ↔
        (⟨1, 0, 2⟩ : State) = ⟨2, 0, 2⟩)) :=
  ⟨by decide, C9_state_eq_spec 4 1 ⟨1, 0, 2⟩ ⟨2, 0, 2⟩ (by decide) (by decide)⟩

end Bloxorz

namespace Bloxorz

/-! ### The move generator versus the section 4.2 table -/

theorem lookup_quad (c1 c2 c3 c4 : Prop) [Decidable c1] [Decidable c2] [Decidable c3] [Decidable c4]
    (t1 t2 t3 t4 : State) (a : Char) :
    ((if c1 then [('U', t1)] else []) ++ ((if c2 then [('D', t2)] else []) ++
     ((if c3 then [('L', t3)] else []) ++ (if c4 then [('R', t4)] else [])))).lookup a
    = if a = 'U' then (if c1 then some t1 else none)
      else if a = 'D' then (if c2 then some t2 else none)
      else if a = 'L' then (if c3 then some t3 else none)
      else if a = 'R' then (if c4 then some t4 else none)
      else none := by
  by_cases hc1 : c1 <;> by_cases hc2 : c2 <;> by_cases hc3 : c3 <;> by_cases hc4 : c4 <;>
    by_cases h1 : a = 'U' <;> by_cases h2 : a = 'D' <;> by_cases h3 : a = 'L' <;>
      by_cases h4 : a = 'R' <;>
    simp_all [List.lookup_cons, beq_false_of_ne, beq_self_eq_true]

theorem successors_lookup_orient0 (m : List (List Char)) (x y : Int) (a : Char) :
    (successors m ⟨x, y, 0⟩).lookup a = succSpec m ⟨x, y, 0⟩ a := by
  simp only [successors, succSpec, tableMove]
  norm_num
  rw [lookup_quad]
  by_cases h1 : a = 'U' <;> by_cases h2 : a = 'D' <;> by_cases h3 : a = 'L' <;>
    by_cases h4 : a = 'R' <;> simp_all [cellsOf] <;> ring_nf

theorem successors_lookup_orient1 (m : List (List Char)) (x y : Int) (a : Char) :
    (successors m ⟨x, y, 1⟩).lookup a = succSpec m ⟨x, y, 1⟩ a := by
  simp only [successors, succSpec, tableMove]
  norm_num
  rw [lookup_quad]
  by_cases h1 : a = 'U' <;> by_cases h2 : a = 'D' <;> by_cases h3 : a = 'L' <;>
    by_cases h4 : a = 'R' <;> simp_all [cellsOf]

theorem successors_lookup_orient2 (m : List (List Char)) (x y : Int) (a : Char) :
    (successors m ⟨x, y, 2⟩).lookup a = succSpec m ⟨x, y, 2⟩ a := by
  simp only [successors, succSpec, tableMove]
  norm_num
  rw [lookup_quad]
  by_cases h1 : a = 'U' <;> by_cases h2 : a = 'D' <;> by_cases h3 : a = 'L' <;>
    by_cases h4 : a = 'R' <;> simp_all [cellsOf]

theorem successors_card_le (m : List (List Char)) (s : State) :
    (successors m s).length ≤ 4 ∧
      ∀ p ∈ successors m s, p.1 = 'U' ∨ p.1 = 'D' ∨ p.1 = 'L' ∨ p.1 = 'R' := by
  obtain ⟨x, y, o⟩ := s
  unfold successors
  split_ifs <;> constructor <;> simp_all

/-- C2: for every state with a legal orientation, the mapping returned by
`successors` is exactly the section 4.2 table: lookup of any action label
equals the spec-side mapping (present iff every cell the block would occupy
is safe, with the tabulated target), at most four entries are returned, and
all keys are among the four action labels. -/
theorem C2_successors_spec (m : List (List Char)) (s : State)
    (ho : s.orient = 0 ∨ s.orient = 1 ∨ s.orient = 2) :
    (∀ a, (successors m s).lookup a = succSpec m s a) ∧
      (successors m s).length ≤ 4 ∧
      ∀ p ∈ successors m s, p.1 = 'U' ∨ p.1 = 'D' ∨ p.1 = 'L' ∨ p.1 = 'R' := by
  refine ⟨fun a => ?_, successors_card_le m s⟩
  obtain ⟨x, y, o⟩ := s
  rcases ho with h | h | h <;> replace h : o = _ := h <;> subst h
  · exact successors_lookup_orient0 m x y a
  · exact successors_lookup_orient1 m x y a
  · exact successors_lookup_orient2 m x y a

/-- C2 witness. -/
theorem C2_successors_spec_witness :
    ((⟨2, 0, 0⟩ : State).orient = 0 ∨ (⟨2, 0, 0⟩ : State).orient = 1 ∨
      (⟨2, 0, 0⟩ : State).orient = 2) ∧
    ((∀ a, (successors [['G', 'O', 'O']] ⟨2, 0, 0⟩).lookup a = succSpec [['G', 'O', 'O']] ⟨2, 0, 0⟩ a) ∧
      (successors [['G', 'O', 'O']] ⟨2, 0, 0⟩).length ≤ 4 ∧
      ∀ p ∈ successors [['G', 'O', 'O']] ⟨2, 0, 0⟩,
        p.1 = 'U' ∨ p.1 = 'D' ∨ p.1 = 'L' ∨ p.1 = 'R') :=
  ⟨by decide, C2_successors_spec [['G', 'O', 'O']] ⟨2, 0, 0⟩ (by decide)⟩

end Bloxorz

namespace Bloxorz

theorem mem_ite_singleton (c : Prop) [Decidable c] (p q : Char × State) :
    p ∈ (if c then [q] else []) ↔ c ∧ p = q := by
  split <;> simp_all

theorem succ_step (m : List (List Char)) (s t : State) (a : Char)
    (hm : (a, t) ∈ successors m s) :
    (t.x_cor = s.x_cor ∧ s.y_cor - 2 ≤ t.y_cor ∧ t.y_cor ≤ s.y_cor + 2) ∨
      (t.y_cor = s.y_cor ∧ s.x_cor - 2 ≤ t.x_cor ∧ t.x_cor ≤ s.x_cor + 2) := by
  obtain ⟨x, y, o⟩ := s
  obtain ⟨tx, ty, t3⟩ := t
  unfold successors at hm
  split_ifs at hm <;>
    simp only [List.mem_append, List.mem_singleton, List.not_mem_nil, or_false, false_or,
      Prod.mk.injEq, State.mk.injEq] at hm <;>
    (try casesm* _ ∨ _) <;> (try casesm* _ ∧ _) <;> subst_vars <;> simp <;> omega

theorem heuristic_consistent (m : List (List Char)) (gX gY : Int) (s s' : State) (a : Char)
    (hm : (a, s') ∈ successors m s) :
    heuristic gX gY s ≤ 1 + heuristic gX gY s' := by
  rcases succ_step m s s' a hm with ⟨hx, h1, h2⟩ | ⟨hy, h1, h2⟩
  · have key : (|gY - s.y_cor| : Int) ≤ |gY - s'.y_cor| + 2 := by
      rw [abs_le]
      constructor <;>
        linarith [le_abs_self (gY - s'.y_cor), neg_abs_le (gY - s'.y_cor)]
    have key2 : ((|gY - s.y_cor| : Int) : Rat) ≤ ((|gY - s'.y_cor| : Int) : Rat) + 2 := by
      exact_mod_cast key
    unfold heuristic
    rw [hx]
    linarith
  · have key : (|gX - s.x_cor| : Int) ≤ |gX - s'.x_cor| + 2 := by
      rw [abs_le]
      constructor <;>
        linarith [le_abs_self (gX - s'.x_cor), neg_abs_le (gX - s'.x_cor)]
    have key2 : ((|gX - s.x_cor| : Int) : Rat) ≤ ((|gX - s'.x_cor| : Int) : Rat) + 2 := by
      exact_mod_cast key
    unfold heuristic
    rw [hy]
    linarith
end Bloxorz

namespace Bloxorz

/-- C6: the heuristic is consistent: for every state `s` and every successor
`s'` of `s` (unit action cost), `h(s) ≤ 1 + h(s')`. -/
theorem C6_heuristic_consistent (m : List (List Char)) (gX gY : Int) (s s' : State) (a : Char)
    (hm : (a, s') ∈ successors m s) :
    heuristic gX gY s ≤ 1 + heuristic gX gY s' :=
  heuristic_consistent m gX gY s s' a hm

/-- C6 witness. -/
theorem C6_heuristic_consistent_witness :
    (('L', (⟨0, 0, 1⟩ : State)) ∈ successors [['G', 'O', 'O']] ⟨2, 0, 0⟩) ∧
      heuristic 0 0 ⟨2, 0, 0⟩ ≤ 1 + heuristic 0 0 ⟨0, 0, 1⟩ :=
  ⟨by decide, C6_heuristic_consistent [['G', 'O', 'O']] 0 0 ⟨2, 0, 0⟩ ⟨0, 0, 1⟩ 'L' (by decide)⟩

end Bloxorz

namespace Bloxorz

theorem getD_ne_default_lt (l : List Char) (j : Nat) (d : Char) (h : l.getD j d ≠ d) :
    j < l.length := by
  by_contra hc
  exact h (List.getD_eq_default l d (by omega))

theorem mem_iff_getD (l : List Char) (d : Char) (c : Char) :
    c ∈ l ↔ ∃ k, k < l.length ∧ l.getD k d = c := by
  constructor
  · intro h
    obtain ⟨k, hk, he⟩ := List.mem_iff_getElem.1 h
    exact ⟨k, hk, by rw [List.getD_eq_getElem l d hk]; exact he⟩
  · rintro ⟨k, hk, he⟩
    rw [List.getD_eq_getElem l d hk] at he
    exact he ▸ List.getElem_mem hk

theorem findCol_sound (c : Char) (l : List Char) (j : Nat) (h : findCol c l = some j) :
    j < l.length ∧ l.getD j ' ' = c := by
  induction l generalizing j with
  | nil => simp [findCol] at h
  | cons d l ih =>
    rw [findCol] at h
    split at h
    · rename_i hd
      injection h with h
      subst h
      exact ⟨by simp, by simpa using hd⟩
    · rcases Option.map_eq_some'.1 h with ⟨j', hj', rfl⟩
      obtain ⟨h1, h2⟩ := ih j' hj'
      exact ⟨by simpa using Nat.succ_lt_succ h1, by simpa using h2⟩

theorem findCol_complete (c : Char) (l : List Char) (j : Nat) (hj : j < l.length)
    (hc : l.getD j ' ' = c) (hmin : ∀ k, k < j → l.getD k ' ' ≠ c) : findCol c l = some j := by
  induction l generalizing j with
  | nil => simp at hj
  | cons d l ih =>
    rw [findCol]
    rcases Nat.eq_zero_or_pos j with rfl | hpos
    · rw [if_pos (by simpa using hc)]
    · obtain ⟨j', rfl⟩ := Nat.exists_eq_succ_of_ne_zero (Nat.pos_iff_ne_zero.1 hpos)
      have hd : ¬ d = c := by
        have := hmin 0 (Nat.succ_pos j')
        simpa using this
      rw [if_neg hd]
      have hrec : findCol c l = some j' := by
        refine ih j' (by simpa using hj) (by simpa using hc) ?_
        intro k hk
        have := hmin (k + 1) (Nat.succ_lt_succ hk)
        simpa using this
      rw [hrec]
      rfl

theorem findCol_none (c : Char) (l : List Char) (h : ∀ d ∈ l, d ≠ c) : findCol c l = none := by
  induction l with
  | nil => rfl
  | cons d l ih =>
    rw [findCol, if_neg (h d (List.mem_cons_self d l)), ih]
    · rfl
    · exact fun x hx => h x (List.mem_cons_of_mem d hx)

theorem findRow_sound (c : Char) (b : List (List Char)) (i j : Nat)
    (h : findRow c b = some (i, j)) :
    i < b.length ∧ findCol c (b.getD i []) = some j := by
  induction b generalizing i with
  | nil => simp [findRow] at h
  | cons r rs ih =>
    rw [findRow] at h
    split at h
    · rename_i j' hj'
      injection h with h
      rw [Prod.mk.injEq] at h
      obtain ⟨h1, h2⟩ := h
      subst h1
      subst h2
      exact ⟨by simp, by simpa using hj'⟩
    · rcases Option.map_eq_some'.1 h with ⟨⟨i', j''⟩, hp, he⟩
      simp only [Prod.mk.injEq] at he
      obtain ⟨h1, h2⟩ := he
      subst h1
      subst h2
      obtain ⟨ih1, ih2⟩ := ih i' hp
      refine ⟨by simpa using Nat.succ_lt_succ ih1, by simpa using ih2⟩

theorem findRow_complete (c : Char) (b : List (List Char)) (i j : Nat) (hi : i < b.length)
    (hnone : ∀ k, k < i → findCol c (b.getD k []) = none)
    (hcol : findCol c (b.getD i []) = some j) : findRow c b = some (i, j) := by
  induction b generalizing i with
  | nil => simp at hi
  | cons r rs ih =>
    rw [findRow]
    rcases Nat.eq_zero_or_pos i with rfl | hpos
    · rw [show findCol c r = some j from by simpa using hcol]
    · obtain ⟨i', rfl⟩ := Nat.exists_eq_succ_of_ne_zero (Nat.pos_iff_ne_zero.1 hpos)
      rw [show findCol c r = none from by simpa using hnone 0 (Nat.succ_pos i')]
      have hrec : findRow c rs = some (i', j) := by
        refine ih i' (by simpa using hi) ?_ (by simpa using hcol)
        intro k hk
        have := hnone (k + 1) (Nat.succ_lt_succ hk)
        simpa using this
      rw [hrec]
      rfl

theorem strReplaceFuel_single (f : Nat) (l : List Char) (h : l.length ≤ f) :
    strReplaceFuel f ['S'] ['0'] l = l.map (fun c => if c = 'S' then '0' else c) := by
  induction f generalizing l with
  | zero =>
    cases l with
    | nil => rfl
    | cons a l => simp at h
  | succ f ih =>
    cases l with
    | nil => rfl
    | cons a l =>
      rw [strReplaceFuel]
      by_cases ha : a = 'S'
      · subst ha
        rw [if_pos (by simp [List.isPrefixOf])]
        simp only [List.map_cons, if_pos rfl]
        rw [show (('S' :: l).drop ([('S' : Char)].length) : List Char) = l from rfl]
        rw [ih l (by simpa using h)]
        rfl
      · rw [if_neg (by simp [List.isPrefixOf]; exact fun hh => ha hh.symm)]
        simp only [List.map_cons, if_neg ha]
        rw [ih l (by simpa using h)]

theorem strReplace_single (l : List Char) :
    strReplace ['S'] ['0'] l = l.map (fun c => if c = 'S' then '0' else c) :=
  strReplaceFuel_single l.length l le_rfl

theorem strReplaceFuel_SS_nomatch (f : Nat) (l : List Char) (h : 'S' ∉ l) :
    strReplaceFuel f ['S', 'S'] ['0', '0'] l = l := by
  induction f generalizing l with
  | zero => rfl
  | succ f ih =>
    cases l with
    | nil => rfl
    | cons a l =>
      have ha : a ≠ 'S' := fun hh => h (hh ▸ List.mem_cons_self a l)
      rw [strReplaceFuel, if_neg (by simp [List.isPrefixOf]; intro hh; exact absurd hh.symm ha)]
      rw [ih l (fun hh => h (List.mem_cons_of_mem a hh))]

theorem strReplace_SS (pre post : List Char) (hpre : 'S' ∉ pre) (hpost : 'S' ∉ post) :
    strReplace ['S', 'S'] ['0', '0'] (pre ++ 'S' :: 'S' :: post) = pre ++ '0' :: '0' :: post := by
  suffices hgen : ∀ f pre2, (pre2 ++ 'S' :: 'S' :: post : List Char).length ≤ f → 'S' ∉ pre2 →
      strReplaceFuel f ['S', 'S'] ['0', '0'] (pre2 ++ 'S' :: 'S' :: post) =
        pre2 ++ '0' :: '0' :: post by
    exact hgen _ pre le_rfl hpre
  intro f
  induction f with
  | zero => intro pre2 hlen; simp at hlen
  | succ f ih =>
    intro pre2 hlen hpre2
    cases pre2 with
    | nil =>
      simp only [List.nil_append]
      rw [strReplaceFuel, if_pos (by simp [List.isPrefixOf])]
      rw [show (('S' :: 'S' :: post : List Char).drop ([('S' : Char), 'S'].length)) = post from rfl]
      rw [strReplaceFuel_SS_nomatch f post hpost]
      rfl
    | cons a pre2 =>
      have ha : a ≠ 'S' := fun hh => hpre2 (hh ▸ List.mem_cons_self a pre2)
      simp only [List.cons_append]
      rw [strReplaceFuel, if_neg (by simp [List.isPrefixOf]; intro hh; exact absurd hh.symm ha)]
      rw [ih pre2 (by simpa using Nat.le_of_succ_le_succ hlen)
        (fun hh => hpre2 (List.mem_cons_of_mem a hh))]

theorem strReplaceFuel_length (f : Nat) (pat repl l : List Char) (hlen : pat.length = repl.length) :
    (strReplaceFuel f pat repl l).length = l.length := by
  induction f generalizing l with
  | zero => rfl
  | succ f ih =>
    cases l with
    | nil =>
      rw [strReplaceFuel]
      split
      · rename_i hpre
        have hp : pat = [] := List.prefix_nil.1 (List.isPrefixOf_iff_prefix.1 hpre)
        have hr : repl = [] := List.length_eq_zero.1 (by rw [← hlen, hp]; rfl)
        subst hp; subst hr
        simpa using ih []
      · rfl
    | cons a l =>
      rw [strReplaceFuel]
      split
      · rename_i hpre
        have hle : pat.length ≤ (a :: l).length :=
          (List.isPrefixOf_iff_prefix.1 hpre).length_le
        rw [List.length_append, ih ((a :: l).drop pat.length), List.length_drop]
        omega
      · simpa using ih l

theorem strReplace_length (pat repl l : List Char) (hlen : pat.length = repl.length) :
    (strReplace pat repl l).length = l.length :=
  strReplaceFuel_length l.length pat repl l hlen

theorem getD_set {α : Type} (d : α) (l : List α) (i j : Nat) (v : α) :
    (l.set i v).getD j d = if j = i ∧ i < l.length then v else l.getD j d := by
  induction l generalizing i j with
  | nil => simp
  | cons a l ih =>
    cases i with
    | zero =>
      cases j with
      | zero => simp
      | succ k => simp
    | succ i =>
      cases j with
      | zero => simp
      | succ k =>
        simp only [List.set_cons_succ, List.getD_cons_succ, ih, List.length_cons]
        by_cases h1 : k = i <;> by_cases h2 : i < l.length <;> simp [h1, h2]

theorem getD_append_right {α : Type} (d : α) (l1 l2 : List α) (k : Nat) :
    (l1 ++ l2).getD (l1.length + k) d = l2.getD k d := by
  induction l1 with
  | nil => simp
  | cons a l1 ih =>
    have he : (a :: l1).length + k = (l1.length + k) + 1 := by
      simp [Nat.add_right_comm]
    rw [he]
    simpa using ih

theorem getD_map_lt (f : Char → Char) (l : List Char) (j : Nat) (d d2 : Char) (h : j < l.length) :
    (l.map f).getD j d = f (l.getD j d2) := by
  rw [List.getD_eq_getElem _ _ (by simpa using h), List.getD_eq_getElem _ _ h]
  simp

theorem is_safe_of_zero (m : List (List Char)) (x y : Nat) (h : cellAt m x y = '0') :
    is_safe m (x : Int) (y : Int) = false := by
  unfold is_safe
  split
  · unfold cellAt at h
    simp only [Int.toNat_natCast]
    simp only [List.getD_eq_getElem?_getD] at h
    simp [h]
  · rfl

theorem initEngine_elim (b : List (List Char)) (e : Engine) (h : initEngine b = some e) :
    ∃ gy gx sy sx : Nat,
      findRow 'G' b = some (gy, gx) ∧ findRow 'S' b = some (sy, sx) ∧
      e.goalX = (gx : Int) ∧ e.goalY = (gy : Int) ∧
      e.xSize = ((b.getD 0 []).length : Int) ∧ e.ySize = (b.length : Int) ∧
      e.closed = (∅ : Finset Int) ∧
      e.queue = ⟨[⟨heuristic e.goalX e.goalY e.initial, e.initial, []⟩], 1⟩ ∧
      e.initial.x_cor = (sx : Int) ∧ e.initial.y_cor = (sy : Int) ∧
      (((sx + 1 < (b.getD sy []).length ∧ (b.getD sy []).getD (sx + 1) ' ' = 'S') ∧
          e.map = b.set sy (strReplace ['S', 'S'] ['0', '0'] (b.getD sy [])) ∧
          e.initial.orient = 1) ∨
        (¬(sx + 1 < (b.getD sy []).length ∧ (b.getD sy []).getD (sx + 1) ' ' = 'S') ∧
          (sy + 1 < b.length ∧ (b.getD (sy + 1) []).getD sx ' ' = 'S') ∧
          e.map = (b.set sy (strReplace ['S'] ['0'] (b.getD sy []))).set (sy + 1)
            (strReplace ['S'] ['0'] (b.getD (sy + 1) [])) ∧
          e.initial.orient = 2) ∨
        (¬(sx + 1 < (b.getD sy []).length ∧ (b.getD sy []).getD (sx + 1) ' ' = 'S') ∧
          ¬(sy + 1 < b.length ∧ (b.getD (sy + 1) []).getD sx ' ' = 'S') ∧
          e.map = b.set sy (strReplace ['S'] ['0'] (b.getD sy [])) ∧
          e.initial.orient = 0)) := by
  cases b with
  | nil => simp [initEngine] at h
  | cons r0 b2 =>
    simp only [initEngine] at h
    split at h
    · exact absurd h (by simp)
    · rename_i gp hG
      split at h
      · exact absurd h (by simp)
      · rename_i sp hS
        split_ifs at h with hb1 hb2
        · injection h with h
          subst h
          exact ⟨gp.1, gp.2, sp.1, sp.2, by simpa using hG, by simpa using hS,
            rfl, rfl, rfl, rfl, rfl, rfl, rfl, rfl, Or.inl ⟨hb1, rfl, rfl⟩⟩
        · injection h with h
          subst h
          exact ⟨gp.1, gp.2, sp.1, sp.2, by simpa using hG, by simpa using hS,
            rfl, rfl, rfl, rfl, rfl, rfl, rfl, rfl, Or.inr (Or.inl ⟨hb1, hb2, rfl, rfl⟩)⟩
        · injection h with h
          subst h
          exact ⟨gp.1, gp.2, sp.1, sp.2, by simpa using hG, by simpa using hS,
            rfl, rfl, rfl, rfl, rfl, rfl, rfl, rfl, Or.inr (Or.inr ⟨hb1, hb2, rfl, rfl⟩)⟩

theorem cellAt_bounds (b : List (List Char)) (x y : Nat) (h : cellAt b x y = 'S') :
    y < b.length ∧ x < (b.getD y []).length := by
  have hy : y < b.length := by
    by_contra hcon
    rw [cellAt, List.getD_eq_default b [] (by omega)] at h
    simp at h
  refine ⟨hy, ?_⟩
  exact getD_ne_default_lt _ _ _ (by rw [← cellAt]; rw [h]; decide)

theorem findS_of_first (b : List (List Char)) (sx sy : Nat)
    (hS : cellAt b sx sy = 'S')
    (hmin : ∀ k, k < sx → cellAt b k sy ≠ 'S')
    (hrows : ∀ i k, i < sy → cellAt b k i ≠ 'S') :
    findRow 'S' b = some (sy, sx) := by
  obtain ⟨hy, hx⟩ := cellAt_bounds b sx sy hS
  refine findRow_complete 'S' b sy sx hy ?_ ?_
  · intro k hk
    refine findCol_none 'S' _ ?_
    intro d hd
    obtain ⟨j, hj, he⟩ := (mem_iff_getD _ ' ' d).1 hd
    intro hdS
    exact hrows k j hk (by rw [cellAt, he, hdS])
  · exact findCol_complete 'S' _ sx hx hS fun k hk => hmin k hk

theorem getD_append_pair0 {α : Type} (d : α) (l1 l2 : List α) (c1 c2 : α) (k : Nat)
    (h : k = l1.length) : (l1 ++ c1 :: c2 :: l2).getD k d = c1 := by
  subst h
  have := getD_append_right d l1 (c1 :: c2 :: l2) 0
  simpa using this

theorem getD_append_pair1 {α : Type} (d : α) (l1 l2 : List α) (c1 c2 : α) (k : Nat)
    (h : k = l1.length + 1) : (l1 ++ c1 :: c2 :: l2).getD k d = c2 := by
  subst h
  have := getD_append_right d l1 (c1 :: c2 :: l2) 1
  simpa using this

theorem C3_start_rewritten (b : List (List Char)) (e : Engine)
    (hcfg : SConfig b) (hinit : initEngine b = some e) :
    (∀ x y : Nat, cellAt b x y = 'S' →
      cellAt e.map x y = '0' ∧ is_safe e.map (x : Int) (y : Int) = false) ∧
      (solve e).2.map = e.map := by
  refine ⟨?_, rfl⟩
  suffices hcells : ∀ x y : Nat, cellAt b x y = 'S' → cellAt e.map x y = '0' by
    intro x y hxy
    exact ⟨hcells x y hxy, is_safe_of_zero e.map x y (hcells x y hxy)⟩
  obtain ⟨gy, gx, sy2, sx2, hG, hS, hgx, hgy, hxs, hys, hcl, hq, hix, hiy, hbr⟩ :=
    initEngine_elim b e hinit
  obtain ⟨sx, sy, hcase⟩ := hcfg
  rcases hcase with hc | hc | hc
  · -- a single S marker
    have hfind : findRow 'S' b = some (sy, sx) := by
      refine findS_of_first b sx sy ((hc sx sy).2 ⟨rfl, rfl⟩) ?_ ?_
      · intro k hk hkS
        have := (hc k sy).1 hkS
        omega
      · intro i k hi hkS
        have := (hc k i).1 hkS
        omega
    have hpair := hfind.symm.trans hS
    injection hpair with hpair
    rw [Prod.mk.injEq] at hpair
    obtain ⟨h1, h2⟩ := hpair
    subst h1
    subst h2
    obtain ⟨hy, hx⟩ := cellAt_bounds b sx sy ((hc sx sy).2 ⟨rfl, rfl⟩)
    rcases hbr with ⟨⟨hb1, hb2⟩, -, -⟩ | ⟨-, ⟨hb1, hb2⟩, -, -⟩ | ⟨-, -, hmap, -⟩
    · have := (hc (sx + 1) sy).1 hb2
      omega
    · have := (hc sx (sy + 1)).1 hb2
      omega
    · have hcell : (strReplace ['S'] ['0'] (b.getD sy [])).getD sx ' ' = '0' := by
        rw [strReplace_single, getD_map_lt _ _ _ _ ' ' hx,
          show (b.getD sy []).getD sx ' ' = 'S' from (hc sx sy).2 ⟨rfl, rfl⟩]
        rfl
      intro x y hxy
      obtain ⟨hxx, hyy⟩ := (hc x y).1 hxy
      rw [cellAt, hmap, getD_set, if_pos ⟨hyy, hy⟩, hxx]
      exact hcell
  · -- two horizontally adjacent S markers
    have hS2 : cellAt b (sx + 1) sy = 'S' := (hc (sx + 1) sy).2 ⟨Or.inr rfl, rfl⟩
    have hfind : findRow 'S' b = some (sy, sx) := by
      refine findS_of_first b sx sy ((hc sx sy).2 ⟨Or.inl rfl, rfl⟩) ?_ ?_
      · intro k hk hkS
        have := (hc k sy).1 hkS
        omega
      · intro i k hi hkS
        have := (hc k i).1 hkS
        omega
    have hpair := hfind.symm.trans hS
    injection hpair with hpair
    rw [Prod.mk.injEq] at hpair
    obtain ⟨h1, h2⟩ := hpair
    subst h1
    subst h2
    obtain ⟨hy, hx⟩ := cellAt_bounds b sx sy ((hc sx sy).2 ⟨Or.inl rfl, rfl⟩)
    obtain ⟨-, hx2⟩ := cellAt_bounds b (sx + 1) sy hS2
    rcases hbr with ⟨-, hmap, -⟩ | ⟨hb1, -, -, -⟩ | ⟨hb1, -, -, -⟩
    rotate_left
    · exact absurd ⟨hx2, hS2⟩ hb1
    · exact absurd ⟨hx2, hS2⟩ hb1
    have hrow : b.getD sy [] =
        (b.getD sy []).take sx ++ 'S' :: 'S' :: (b.getD sy []).drop (sx + 2) := by
      conv_lhs => rw [← List.take_append_drop sx (b.getD sy [])]
      congr 1
      rw [List.drop_eq_getElem_cons hx, List.drop_eq_getElem_cons (by omega)]
      rw [show (b.getD sy [])[sx] = 'S' from by
        rw [← List.getD_eq_getElem _ ' ' hx]
        exact (hc sx sy).2 ⟨Or.inl rfl, rfl⟩]
      rw [show getElem (b.getD sy []) (sx + 1)
            (by omega : sx + 1 < (b.getD sy []).length) = 'S' from by
        rw [← List.getD_eq_getElem _ ' ' (by omega : sx + 1 < (b.getD sy []).length)]
        exact hS2]
    have hpre : 'S' ∉ (b.getD sy []).take sx := by
      intro hmem
      obtain ⟨i, hi, he⟩ := List.mem_take_iff_getElem.1 hmem
      have hcc : cellAt b i sy = 'S' := by
        rw [cellAt, List.getD_eq_getElem _ ' ' (by omega : i < (b.getD sy []).length)]
        exact he
      have := (hc i sy).1 hcc
      omega
    have hpost : 'S' ∉ (b.getD sy []).drop (sx + 2) := by
      intro hmem
      obtain ⟨i, hi, he⟩ := List.mem_drop_iff_getElem.1 hmem
      have hcc : cellAt b (sx + 2 + i) sy = 'S' := by
        rw [cellAt, List.getD_eq_getElem _ ' ' (by omega : sx + 2 + i < (b.getD sy []).length)]
        exact he
      have := (hc (sx + 2 + i) sy).1 hcc
      omega
    have hnew : strReplace ['S', 'S'] ['0', '0'] (b.getD sy []) =
        (b.getD sy []).take sx ++ '0' :: '0' :: (b.getD sy []).drop (sx + 2) := by
      conv_lhs => rw [hrow]
      exact strReplace_SS _ _ hpre hpost
    have htk : ((b.getD sy []).take sx).length = sx := by
      rw [List.length_take]
      omega
    have hcell1 : (strReplace ['S', 'S'] ['0', '0'] (b.getD sy [])).getD sx ' ' = '0' := by
      rw [hnew]
      exact getD_append_pair0 ' ' _ _ _ _ sx htk.symm
    have hcell2 : (strReplace ['S', 'S'] ['0', '0'] (b.getD sy [])).getD (sx + 1) ' ' = '0' := by
      rw [hnew]
      exact getD_append_pair1 ' ' _ _ _ _ (sx + 1) (by omega)
    intro x y hxy
    obtain ⟨hxx, hyy⟩ := (hc x y).1 hxy
    rw [cellAt, hmap, getD_set, if_pos ⟨hyy, hy⟩]
    rcases hxx with h | h <;> rw [h]
    · exact hcell1
    · exact hcell2
  · -- two vertically adjacent S markers
    have hS2 : cellAt b sx (sy + 1) = 'S' := (hc sx (sy + 1)).2 ⟨rfl, Or.inr rfl⟩
    have hfind : findRow 'S' b = some (sy, sx) := by
      refine findS_of_first b sx sy ((hc sx sy).2 ⟨rfl, Or.inl rfl⟩) ?_ ?_
      · intro k hk hkS
        have := (hc k sy).1 hkS
        omega
      · intro i k hi hkS
        have := (hc k i).1 hkS
        omega
    have hpair := hfind.symm.trans hS
    injection hpair with hpair
    rw [Prod.mk.injEq] at hpair
    obtain ⟨h1, h2⟩ := hpair
    subst h1
    subst h2
    obtain ⟨hy, hx⟩ := cellAt_bounds b sx sy ((hc sx sy).2 ⟨rfl, Or.inl rfl⟩)
    obtain ⟨hy2, hx2⟩ := cellAt_bounds b sx (sy + 1) hS2
    rcases hbr with ⟨⟨hb1, hb2⟩, -, -⟩ | ⟨-, -, hmap, -⟩ | ⟨-, hb1, -⟩
    · have := (hc (sx + 1) sy).1 hb2
      omega
    rotate_left
    · exact absurd ⟨hy2, hS2⟩ hb1
    have hcell1 : (strReplace ['S'] ['0'] (b.getD sy [])).getD sx ' ' = '0' := by
      rw [strReplace_single, getD_map_lt _ _ _ _ ' ' hx,
        show (b.getD sy []).getD sx ' ' = 'S' from (hc sx sy).2 ⟨rfl, Or.inl rfl⟩]
      rfl
    have hcell2 : (strReplace ['S'] ['0'] (b.getD (sy + 1) [])).getD sx ' ' = '0' := by
      rw [strReplace_single, getD_map_lt _ _ _ _ ' ' hx2,
        show (b.getD (sy + 1) []).getD sx ' ' = 'S' from hS2]
      rfl
    intro x y hxy
    obtain ⟨hxx, hyy⟩ := (hc x y).1 hxy
    rw [cellAt, hmap, getD_set]
    rcases hyy with h | h
    · rw [if_neg (by rintro ⟨he, -⟩; omega), getD_set, if_pos ⟨h, hy⟩, hxx]
      exact hcell1
    · rw [if_pos ⟨h, by rw [List.length_set]; exact hy2⟩, hxx]
      exact hcell2

end Bloxorz

namespace Bloxorz

/-- C3: after construction on a board whose `'S'` markers form a legal start
footprint, every cell that held `'S'` holds the digit `'0'` (not `'O'`), is
never again accepted by `is_safe`, and the board is not modified by `solve`. -/
theorem C3_start_becomes_unsafe (b : List (List Char)) (e : Engine)
    (hcfg : SConfig b) (hinit : initEngine b = some e) :
    (∀ x y : Nat, cellAt b x y = 'S' →
      cellAt e.map x y = '0' ∧ is_safe e.map (x : Int) (y : Int) = false) ∧
      (solve e).2.map = e.map :=
  C3_start_rewritten b e hcfg hinit

/-- C3 witness. -/
theorem C3_start_becomes_unsafe_witness :
    (SConfig [['S', 'O', 'G']] ∧
      initEngine [['S', 'O', 'G']] =
        some ⟨[['0', 'O', 'G']], ∅, ⟨[⟨heuristic 2 0 ⟨0, 0, 0⟩, ⟨0, 0, 0⟩, []⟩], 1⟩,
          3, 1, 2, 0, ⟨0, 0, 0⟩⟩) ∧
    ((∀ x y : Nat, cellAt [['S', 'O', 'G']] x y = 'S' →
        cellAt (⟨[['0', 'O', 'G']], ∅, ⟨[⟨heuristic 2 0 ⟨0, 0, 0⟩, ⟨0, 0, 0⟩, []⟩], 1⟩,
          3, 1, 2, 0, ⟨0, 0, 0⟩⟩ : Engine).map x y = '0' ∧
        is_safe (⟨[['0', 'O', 'G']], ∅, ⟨[⟨heuristic 2 0 ⟨0, 0, 0⟩, ⟨0, 0, 0⟩, []⟩], 1⟩,
          3, 1, 2, 0, ⟨0, 0, 0⟩⟩ : Engine).map (x : Int) (y : Int) = false) ∧
      (solve (⟨[['0', 'O', 'G']], ∅, ⟨[⟨heuristic 2 0 ⟨0, 0, 0⟩, ⟨0, 0, 0⟩, []⟩], 1⟩,
          3, 1, 2, 0, ⟨0, 0, 0⟩⟩ : Engine)).2.map =
        (⟨[['0', 'O', 'G']], ∅, ⟨[⟨heuristic 2 0 ⟨0, 0, 0⟩, ⟨0, 0, 0⟩, []⟩], 1⟩,
          3, 1, 2, 0, ⟨0, 0, 0⟩⟩ : Engine).map) := by
  have hcfg : SConfig [['S', 'O', 'G']] := by
    refine ⟨0, 0, Or.inl ?_⟩
    intro x y
    rcases x with _ | _ | _ | x <;> rcases y with _ | y <;> simp [cellAt]
  have hinit : initEngine [['S', 'O', 'G']] =
      some ⟨[['0', 'O', 'G']], ∅, ⟨[⟨heuristic 2 0 ⟨0, 0, 0⟩, ⟨0, 0, 0⟩, []⟩], 1⟩,
        3, 1, 2, 0, ⟨0, 0, 0⟩⟩ := rfl
  exact ⟨⟨hcfg, hinit⟩, C3_start_becomes_unsafe _ _ hcfg hinit⟩

end Bloxorz

namespace Bloxorz

/-! ### The binary heap: structural lemmas -/

theorem mset_set (l : List Node) (i : Nat) (v : Node) (hi : i < l.length) :
    ((l.set i v : List Node) : Multiset Node) + {l.getD i dNode} =
      (l : Multiset Node) + {v} := by
  induction l generalizing i with
  | nil => simp at hi
  | cons a l ih =>
    cases i with
    | zero =>
      simp only [List.set_cons_zero, List.getD_cons_zero]
      show v ::ₘ (l : Multiset Node) + {a} = a ::ₘ (l : Multiset Node) + {v}
      rw [← Multiset.singleton_add, ← Multiset.singleton_add]
      abel
    | succ i =>
      simp only [List.set_cons_succ, List.getD_cons_succ]
      show a ::ₘ ((l.set i v : List Node) : Multiset Node) + {l.getD i dNode} =
        a ::ₘ (l : Multiset Node) + {v}
      rw [← Multiset.singleton_add, ← Multiset.singleton_add, add_assoc, add_assoc,
        ih i (by simpa using hi)]

theorem set_getD_self (l : List Node) (i : Nat) :
    l.set i (l.getD i dNode) = l := by
  induction l generalizing i with
  | nil => rfl
  | cons a l ih =>
    cases i with
    | zero => simp
    | succ i => simpa using ih i

theorem getD_append_left {α : Type} (d : α) (l1 l2 : List α) (i : Nat) (h : i < l1.length) :
    (l1 ++ l2).getD i d = l1.getD i d := by
  rw [List.getD_eq_getElem _ _ (by simp; omega), List.getD_eq_getElem _ _ h]
  exact List.getElem_append_left h

theorem dropLast_getD (l : List Node) (i : Nat) (h : i < l.length - 1) :
    l.dropLast.getD i dNode = l.getD i dNode := by
  rw [List.getD_eq_getElem _ _ (by simpa using h), List.getD_eq_getElem _ _ (by omega)]
  exact List.getElem_dropLast l i (by simpa using h)

theorem siftdownFuel_mset (fuel : Nat) (x : Node) (l : List Node) (startpos pos : Nat)
    (hpos : pos < l.length) :
    ((siftdownFuel fuel x l startpos pos : List Node) : Multiset Node) =
      (l.set pos x : Multiset Node) := by
  induction fuel generalizing l pos with
  | zero => rfl
  | succ fuel ih =>
    rw [siftdownFuel]
    dsimp only
    split
    · rename_i hlt
      split
      · rename_i hcmp
        have hpp : (pos - 1) / 2 < l.length := by omega
        have hne : (pos - 1) / 2 ≠ pos := by omega
        rw [ih (l.set pos (l.getD ((pos - 1) / 2) dNode)) ((pos - 1) / 2)
          (by simpa using hpp)]
        have e1 := mset_set (l.set pos (l.getD ((pos - 1) / 2) dNode)) ((pos - 1) / 2) x
          (by simpa using hpp)
        have e2 := mset_set l pos (l.getD ((pos - 1) / 2) dNode) hpos
        have e3 := mset_set l pos x hpos
        rw [getD_set, if_neg (by tauto)] at e1
        have key : ((l.set pos (l.getD ((pos - 1) / 2) dNode)).set ((pos - 1) / 2) x :
              Multiset Node) + ({l.getD ((pos - 1) / 2) dNode} + {l.getD pos dNode})
            = (l.set pos x : Multiset Node) +
              ({l.getD ((pos - 1) / 2) dNode} + {l.getD pos dNode}) := calc
          ((l.set pos (l.getD ((pos - 1) / 2) dNode)).set ((pos - 1) / 2) x : Multiset Node) +
              ({l.getD ((pos - 1) / 2) dNode} + {l.getD pos dNode})
              = (((l.set pos (l.getD ((pos - 1) / 2) dNode)).set ((pos - 1) / 2) x :
                Multiset Node) + {l.getD ((pos - 1) / 2) dNode}) + {l.getD pos dNode} := by
                abel
          _ = ((l.set pos (l.getD ((pos - 1) / 2) dNode) : Multiset Node) + {x}) +
                {l.getD pos dNode} := by rw [e1]
          _ = ((l.set pos (l.getD ((pos - 1) / 2) dNode) : Multiset Node) +
                {l.getD pos dNode}) + {x} := by abel
          _ = ((l : Multiset Node) + {l.getD ((pos - 1) / 2) dNode}) + {x} := by rw [e2]
          _ = ((l : Multiset Node) + {x}) + {l.getD ((pos - 1) / 2) dNode} := by abel
          _ = ((l.set pos x : Multiset Node) + {l.getD pos dNode}) +
                {l.getD ((pos - 1) / 2) dNode} := by rw [← e3]
          _ = (l.set pos x : Multiset Node) +
                ({l.getD ((pos - 1) / 2) dNode} + {l.getD pos dNode}) := by abel
        exact add_right_cancel key
      · rfl
    · rfl

theorem siftupLoop_structure (fuel : Nat) (l : List Node) (pos : Nat) (hpos : pos < l.length) :
    (siftupLoop fuel l pos).1.length = l.length ∧
      (siftupLoop fuel l pos).2 < l.length ∧
      (∀ v : Node, (((siftupLoop fuel l pos).1.set (siftupLoop fuel l pos).2 v : List Node) :
        Multiset Node) = (l.set pos v : Multiset Node)) := by
  induction fuel generalizing l pos with
  | zero => exact ⟨rfl, hpos, fun v => rfl⟩
  | succ fuel ih =>
    rw [siftupLoop]
    dsimp only
    split
    · rename_i hchild
      set c := if 2 * pos + 2 < l.length &&
          !(Node.lt (l.getD (2 * pos + 1) dNode) (l.getD (2 * pos + 2) dNode))
        then 2 * pos + 2 else 2 * pos + 1 with hc
      have hcl : c < l.length := by
        rw [hc]
        split <;> rename_i hsp
        · simp only [Bool.and_eq_true, decide_eq_true_eq] at hsp
          exact hsp.1
        · exact hchild
      have hlen : (l.set pos (l.getD c dNode)).length = l.length := by simp
      obtain ⟨ih1, ih2, ih3⟩ := ih (l.set pos (l.getD c dNode)) c (by rw [hlen]; exact hcl)
      refine ⟨by rw [ih1, hlen], by rw [← hlen]; exact (hlen ▸ ih2), fun v => ?_⟩
      rw [ih3 v]
      have hcpos : c ≠ pos := by
        rw [hc]
        split <;> omega
      have e1 := mset_set (l.set pos (l.getD c dNode)) c v (by rw [hlen]; exact hcl)
      have e2 := mset_set l pos (l.getD c dNode) hpos
      have e3 := mset_set l pos v hpos
      rw [getD_set, if_neg (by tauto)] at e1
      have key : ((l.set pos (l.getD c dNode)).set c v : Multiset Node) +
            ({l.getD c dNode} + {l.getD pos dNode})
          = (l.set pos v : Multiset Node) + ({l.getD c dNode} + {l.getD pos dNode}) := calc
        ((l.set pos (l.getD c dNode)).set c v : Multiset Node) +
            ({l.getD c dNode} + {l.getD pos dNode})
            = (((l.set pos (l.getD c dNode)).set c v : Multiset Node) +
              {l.getD c dNode}) + {l.getD pos dNode} := by abel
        _ = ((l.set pos (l.getD c dNode) : Multiset Node) + {v}) + {l.getD pos dNode} := by
              rw [e1]
        _ = ((l.set pos (l.getD c dNode) : Multiset Node) + {l.getD pos dNode}) + {v} := by
              abel
        _ = ((l : Multiset Node) + {l.getD c dNode}) + {v} := by rw [e2]
        _ = ((l : Multiset Node) + {v}) + {l.getD c dNode} := by abel
        _ = ((l.set pos v : Multiset Node) + {l.getD pos dNode}) + {l.getD c dNode} := by
              rw [← e3]
        _ = (l.set pos v : Multiset Node) + ({l.getD c dNode} + {l.getD pos dNode}) := by abel
      exact add_right_cancel key
    · exact ⟨rfl, hpos, fun v => rfl⟩

theorem siftup_mset (l : List Node) (h0 : 0 < l.length) :
    ((siftup l 0 : List Node) : Multiset Node) = (l : Multiset Node) := by
  unfold siftup
  dsimp only
  obtain ⟨h1, h2, h3⟩ := siftupLoop_structure l.length l 0 h0
  rw [siftdownFuel_mset _ _ _ _ _ (by rw [List.length_set, h1]; exact h2)]
  rw [List.set_set]
  rw [h3 (l.getD 0 dNode)]
  rw [set_getD_self]

theorem heappush_mem (l : List Node) (x : Node) :
    ((heappush l x : List Node) : Multiset Node) = x ::ₘ (l : Multiset Node) := by
  unfold heappush
  rw [siftdownFuel_mset _ _ _ _ _ (by simp)]
  have hgd : (l ++ [x]).getD l.length dNode = x := by
    have := getD_append_right dNode l [x] 0
    simpa using this
  have hset : (l ++ [x]).set l.length x = l ++ [x] := by
    have := set_getD_self (l ++ [x]) l.length
    rwa [hgd] at this
  rw [hset]
  have hco : ((l ++ [x] : List Node) : Multiset Node) =
      (l : Multiset Node) + ({x} : Multiset Node) := by
    exact_mod_cast rfl
  rw [hco, ← Multiset.singleton_add]
  abel

theorem heappop_mem (l l2 : List Node) (r : Node) (h : heappop l = some (r, l2)) :
    (l : Multiset Node) = r ::ₘ (l2 : Multiset Node) := by
  unfold heappop at h
  split at h
  · exact absurd h (by simp)
  · rename_i lastelt hlast
    dsimp only at h
    split at h
    · rename_i hemp
      injection h with h
      rw [Prod.mk.injEq] at h
      obtain ⟨h1, h2⟩ := h
      subst h2
      rw [← h1]
      have hne : l ≠ [] := by
        intro hcon
        rw [hcon] at hlast
        simp at hlast
      have hl : l = [lastelt] := by
        have hd := List.dropLast_append_getLast (l := l) hne
        rw [List.isEmpty_iff] at hemp
        rw [hemp] at hd
        rw [List.getLast?_eq_getLast _ hne] at hlast
        injection hlast with hlast
        rw [hlast] at hd
        exact hd.symm
      rw [hl]
      rfl
    · rename_i hemp
      injection h with h
      rw [Prod.mk.injEq] at h
      obtain ⟨h1, h2⟩ := h
      have hne : l ≠ [] := by
        intro hcon
        rw [hcon] at hlast
        simp at hlast
      have hd := List.dropLast_append_getLast (l := l) hne
      have hlast2 : l.getLast hne = lastelt := by
        rw [List.getLast?_eq_getLast _ hne] at hlast
        exact Option.some_injective _ hlast
      have hrestlen : 0 < l.dropLast.length := by
        rw [List.isEmpty_iff] at hemp
        cases hq : l.dropLast with
        | nil => exact absurd hq hemp
        | cons a t => simp [hq]
      have hmset2 : (l2 : Multiset Node) =
          ((l.dropLast.set 0 lastelt : List Node) : Multiset Node) := by
        rw [← h2]
        exact siftup_mset _ (by simpa using hrestlen)
      have e2 := mset_set l.dropLast 0 lastelt hrestlen
      have hr : r = l.dropLast.getD 0 dNode := h1.symm
      calc (l : Multiset Node)
          = ((l.dropLast ++ [l.getLast hne] : List Node) : Multiset Node) := by rw [hd]
        _ = (l.dropLast : Multiset Node) + {lastelt} := by
              rw [hlast2]
              push_cast
              rfl
        _ = ((l.dropLast.set 0 lastelt : List Node) : Multiset Node) +
              {l.dropLast.getD 0 dNode} := by rw [e2]
        _ = (l2 : Multiset Node) + {r} := by rw [hmset2, hr]
        _ = r ::ₘ (l2 : Multiset Node) := by
              rw [← Multiset.singleton_add]
              abel

theorem heap_root_min (l : List Node) (h : HeapInv l) (i : Nat) (hi : i < l.length) :
    (l.getD 0 dNode).costGuess ≤ (l.getD i dNode).costGuess := by
  induction i using Nat.strong_induction_on with
  | _ i ih =>
    rcases Nat.eq_zero_or_pos i with rfl | hpos
    · exact le_refl _
    · exact le_trans (ih ((i - 1) / 2) (by omega) (by omega)) (h i hpos hi)

theorem AHeap_set (l : List Node) (pos : Nat) (x : Node) (hpos : pos < l.length)
    (hA : AHeap l pos x)
    (hedge : 0 < pos → (l.getD ((pos - 1) / 2) dNode).costGuess ≤ x.costGuess) :
    HeapInv (l.set pos x) := by
  intro i h0 hi
  rw [List.length_set] at hi
  by_cases hip : i = pos
  · subst hip
    rw [getD_set dNode l i ((i - 1) / 2) x, if_neg (by rintro ⟨hp, -⟩; omega),
      getD_set dNode l i i x, if_pos ⟨rfl, hpos⟩]
    exact hedge h0
  · rw [getD_set dNode l pos i x, if_neg (by tauto)]
    by_cases hpp : (i - 1) / 2 = pos
    · rw [getD_set dNode l pos ((i - 1) / 2) x, if_pos ⟨hpp, hpos⟩]
      exact (hA.1 i h0 hi hip).1 hpp
    · rw [getD_set dNode l pos ((i - 1) / 2) x, if_neg (by tauto)]
      exact (hA.1 i h0 hi hip).2 hpp

theorem siftdownFuel_heapInv (fuel : Nat) : ∀ (pos : Nat) (x : Node) (l : List Node),
    pos ≤ fuel → pos < l.length → AHeap l pos x →
    HeapInv (siftdownFuel fuel x l 0 pos) := by
  induction fuel with
  | zero =>
    intro pos x l hfuel hpos hA
    have hp0 : pos = 0 := by omega
    subst hp0
    exact AHeap_set l 0 x hpos hA (by omega)
  | succ fuel ih =>
    intro pos x l hfuel hpos hA
    rw [siftdownFuel]
    dsimp only
    split
    · rename_i hlt
      split
      · rename_i hcmp
        have hxp : x.costGuess < (l.getD ((pos - 1) / 2) dNode).costGuess :=
          of_decide_eq_true hcmp
        refine ih ((pos - 1) / 2) x (l.set pos (l.getD ((pos - 1) / 2) dNode))
          (by omega) (by rw [List.length_set]; omega) ?_
        constructor
        · intro i h0 hil hipp
          rw [List.length_set] at hil
          constructor
          · intro hpari
            by_cases hip : i = pos
            · subst hip
              rw [getD_set dNode l i i _, if_pos ⟨rfl, hpos⟩]
              exact le_of_lt hxp
            · rw [getD_set dNode l pos i _, if_neg (by tauto)]
              have hparne : (i - 1) / 2 ≠ pos := by omega
              have := (hA.1 i h0 hil hip).2 hparne
              rw [hpari] at this
              exact le_trans (le_of_lt hxp) this
          · intro hparine
            by_cases hip : i = pos
            · exfalso
              subst hip
              exact hparine rfl
            · rw [getD_set dNode l pos i _, if_neg (by tauto)]
              by_cases hpari : (i - 1) / 2 = pos
              · rw [getD_set dNode l pos ((i - 1) / 2) _, if_pos ⟨hpari, hpos⟩]
                have hichild : i = 2 * pos + 1 ∨ i = 2 * pos + 2 := by omega
                exact hA.2 hlt i hichild hil
              · rw [getD_set dNode l pos ((i - 1) / 2) _, if_neg (by tauto)]
                exact (hA.1 i h0 hil hip).2 hpari
        · intro hpp0 c hc hcl
          rw [List.length_set] at hcl
          have hppltpos : (pos - 1) / 2 < pos := by omega
          have hparpp : ((pos - 1) / 2 - 1) / 2 ≠ pos := by omega
          rw [getD_set dNode l pos (((pos - 1) / 2 - 1) / 2) _, if_neg (by
            rintro ⟨hp, -⟩
            omega)]
          have hgrand : (l.getD (((pos - 1) / 2 - 1) / 2) dNode).costGuess ≤
              (l.getD ((pos - 1) / 2) dNode).costGuess := by
            have := (hA.1 ((pos - 1) / 2) hpp0 (by omega) (by omega)).2 hparpp
            exact this
          by_cases hcpos : c = pos
          · subst hcpos
            rw [getD_set dNode l c c _, if_pos ⟨rfl, hpos⟩]
            exact hgrand
          · rw [getD_set dNode l pos c _, if_neg (by tauto)]
            have hc0 : 0 < c := by omega
            have hcne : c ≠ pos := hcpos
            have hparc : (c - 1) / 2 = (pos - 1) / 2 := by omega
            have hparcne : (c - 1) / 2 ≠ pos := by omega
            have := (hA.1 c hc0 hcl hcne).2 hparcne
            rw [hparc] at this
            exact le_trans hgrand this
      · rename_i hcmp
        have hxp : ¬ x.costGuess < (l.getD ((pos - 1) / 2) dNode).costGuess := by
          intro hcon
          exact hcmp (by unfold Node.lt; exact decide_eq_true hcon)
        exact AHeap_set l pos x hpos hA (fun h0 => not_lt.1 hxp)
    · rename_i hlt
      have hp0 : pos = 0 := by omega
      subst hp0
      exact AHeap_set l 0 x hpos hA (by omega)

theorem heappush_heapInv (l : List Node) (x : Node) (h : HeapInv l) :
    HeapInv (heappush l x) := by
  unfold heappush
  refine siftdownFuel_heapInv l.length l.length x (l ++ [x]) le_rfl (by simp) ⟨?_, ?_⟩
  · intro i h0 hil hip
    have hilen : i < l.length := by
      simp only [List.length_append, List.length_cons, List.length_nil] at hil
      omega
    constructor
    · intro hpari
      exfalso
      omega
    · intro hparine
      rw [getD_append_left dNode l [x] i hilen, getD_append_left dNode l [x] _ (by omega)]
      exact h i h0 hilen
  · intro hl0 c hc hcl
    exfalso
    simp only [List.length_append, List.length_cons, List.length_nil] at hcl
    omega

theorem siftupLoop_holeHeap (fuel : Nat) : ∀ (l : List Node) (pos : Nat),
    l.length - pos ≤ fuel → pos < l.length → HoleHeap l pos →
    HoleHeap (siftupLoop fuel l pos).1 (siftupLoop fuel l pos).2 ∧
      2 * (siftupLoop fuel l pos).2 + 1 ≥ (siftupLoop fuel l pos).1.length := by
  induction fuel with
  | zero =>
    intro l pos hfuel hpos hh
    omega
  | succ fuel ih =>
    intro l pos hfuel hpos hh
    rw [siftupLoop]
    dsimp only
    split
    · rename_i hchild
      set c := if 2 * pos + 2 < l.length &&
          !(Node.lt (l.getD (2 * pos + 1) dNode) (l.getD (2 * pos + 2) dNode))
        then 2 * pos + 2 else 2 * pos + 1 with hcdef
      have hcchild : c = 2 * pos + 1 ∨ c = 2 * pos + 2 := by
        rw [hcdef]
        split
        · exact Or.inr rfl
        · exact Or.inl rfl
      have hcl : c < l.length := by
        rw [hcdef]
        split <;> rename_i hsp
        · simp only [Bool.and_eq_true] at hsp
          exact of_decide_eq_true hsp.1
        · exact hchild
      have hsmall : ∀ s, (s = 2 * pos + 1 ∨ s = 2 * pos + 2) → s < l.length →
          (l.getD c dNode).costGuess ≤ (l.getD s dNode).costGuess := by
        intro s hs hsl
        rw [hcdef]
        split <;> rename_i hsp
        · simp only [Bool.and_eq_true, Bool.not_eq_true] at hsp
          have hnotlt : ¬ (l.getD (2 * pos + 1) dNode).costGuess <
              (l.getD (2 * pos + 2) dNode).costGuess := by
            intro hcon
            have : Node.lt (l.getD (2 * pos + 1) dNode) (l.getD (2 * pos + 2) dNode) = true :=
              decide_eq_true hcon
            rw [this] at hsp
            exact absurd hsp.2 (by simp)
          rcases hs with rfl | rfl
          · exact not_lt.1 hnotlt
          · exact le_refl _
        · rcases hs with rfl | rfl
          · exact le_refl _
          · have hb := Bool.eq_false_iff.mpr hsp
            rw [Bool.and_eq_false_iff] at hb
            rcases hb with hb | hb
            · exfalso
              rw [decide_eq_false_iff_not] at hb
              exact hb hsl
            · cases hX : Node.lt (l.getD (2 * pos + 1) dNode) (l.getD (2 * pos + 2) dNode) with
              | false => rw [hX] at hb; simp at hb
              | true => exact le_of_lt (of_decide_eq_true hX)
      have hcge : pos + 1 ≤ c := by rcases hcchild with h | h <;> omega
      have hc0 : 0 < c := by omega
      have hcne : c ≠ pos := by omega
      have hparc : (c - 1) / 2 = pos := by rcases hcchild with h | h <;> rw [h] <;> omega
      have hstep : HoleHeap (l.set pos (l.getD c dNode)) c := by
        constructor
        · intro i h0 hil hic hpari
          rw [List.length_set] at hil
          by_cases hip : i = pos
          · subst hip
            have hi0 : 0 < i := h0
            rw [getD_set dNode l i i _, if_pos ⟨rfl, hpos⟩]
            have hparine : (i - 1) / 2 ≠ i := by omega
            rw [getD_set dNode l i ((i - 1) / 2) _, if_neg (by tauto)]
            exact hh.2 h0 c hcchild hcl
          · rw [getD_set dNode l pos i _, if_neg (by tauto)]
            by_cases hparip : (i - 1) / 2 = pos
            · rw [getD_set dNode l pos ((i - 1) / 2) _, if_pos ⟨hparip, hpos⟩]
              have hichild : i = 2 * pos + 1 ∨ i = 2 * pos + 2 := by omega
              exact hsmall i hichild hil
            · rw [getD_set dNode l pos ((i - 1) / 2) _, if_neg (by tauto)]
              exact hh.1 i h0 hil hip hparip
        · intro h0c gc hgc hgcl
          rw [List.length_set] at hgcl
          have hgcpos : gc ≠ pos := by rcases hgc with h | h <;> omega
          have hpargc : (gc - 1) / 2 = c := by rcases hgc with h | h <;> rw [h] <;> omega
          have hgc0 : 0 < gc := by rcases hgc with h | h <;> omega
          rw [hparc]
          rw [getD_set dNode l pos pos _, if_pos ⟨rfl, hpos⟩]
          rw [getD_set dNode l pos gc _, if_neg (by tauto)]
          rw [← hpargc]
          exact hh.1 gc hgc0 hgcl hgcpos (by rw [hpargc]; exact hcne)
      have hrec := ih (l.set pos (l.getD c dNode)) c
        (by rw [List.length_set]; omega) (by rw [List.length_set]; exact hcl) hstep
      exact hrec
    · rename_i hchild
      refine ⟨hh, ?_⟩
      dsimp only
      omega

theorem siftup_heapInv (l : List Node) (h0 : 0 < l.length) (hh : HoleHeap l 0) :
    HeapInv (siftup l 0) := by
  unfold siftup
  dsimp only
  obtain ⟨hlen, hposlt, -⟩ := siftupLoop_structure l.length l 0 h0
  obtain ⟨hhole, hleaf⟩ := siftupLoop_holeHeap l.length l 0 (by omega) h0 hh
  refine siftdownFuel_heapInv (siftupLoop l.length l 0).2 (siftupLoop l.length l 0).2
    (l.getD 0 dNode) ((siftupLoop l.length l 0).1.set (siftupLoop l.length l 0).2
      (l.getD 0 dNode)) le_rfl (by rw [List.length_set, hlen]; exact hposlt) ⟨?_, ?_⟩
  · intro i h0i hil hip
    rw [List.length_set, hlen] at hil
    constructor
    · intro hpari
      exfalso
      have : i ≥ 2 * (siftupLoop l.length l 0).2 + 1 := by omega
      omega
    · intro hparine
      rw [getD_set dNode _ _ i _, if_neg (by tauto),
        getD_set dNode _ _ ((i - 1) / 2) _, if_neg (by tauto)]
      exact hhole.1 i h0i (by rw [hlen]; exact hil) hip hparine
  · intro hpos0 gc hgc hgcl
    exfalso
    rw [List.length_set, hlen] at hgcl
    omega

theorem heappop_spec (l : List Node) (hne : l ≠ []) (hinv : HeapInv l) :
    ∃ l2, heappop l = some (l.getD 0 dNode, l2) ∧ HeapInv l2 := by
  unfold heappop
  cases hlast : l.getLast? with
  | none =>
    exfalso
    rw [List.getLast?_eq_getLast _ hne] at hlast
    simp at hlast
  | some lastelt =>
    dsimp only
    split
    · rename_i hemp
      rw [List.isEmpty_iff] at hemp
      have hl : l = [lastelt] := by
        have hd := List.dropLast_append_getLast (l := l) hne
        rw [hemp] at hd
        rw [List.getLast?_eq_getLast _ hne] at hlast
        have := Option.some_injective _ hlast
        rw [this] at hd
        exact hd.symm
      refine ⟨[], by rw [hl]; rfl, ?_⟩
      intro i h0 hi
      simp at hi
    · rename_i hemp
      rw [List.isEmpty_iff] at hemp
      have hrestlen : 0 < l.dropLast.length := by
        cases hq : l.dropLast with
        | nil => exact absurd hq hemp
        | cons a t => simp [hq]
      refine ⟨siftup (l.dropLast.set 0 lastelt) 0, ?_, ?_⟩
      · have : l.dropLast.getD 0 dNode = l.getD 0 dNode :=
          dropLast_getD l 0 (by simpa using hrestlen)
        rw [this]
      · refine siftup_heapInv _ (by simpa using hrestlen) ⟨?_, ?_⟩
        · intro i h0 hil hip hpari
          rw [List.length_set] at hil
          rw [getD_set dNode _ _ i _, if_neg (by tauto),
            getD_set dNode _ _ ((i - 1) / 2) _, if_neg (by tauto)]
          rw [dropLast_getD l i (by simpa using hil),
            dropLast_getD l ((i - 1) / 2) (by simp only [List.length_dropLast] at hil; omega)]
          exact hinv i h0 (by simp only [List.length_dropLast] at hil; omega)
        · intro h00
          exact absurd h00 (by omega)

end Bloxorz

namespace Bloxorz

/-! ### Paths through the move generator -/

theorem lookup_mem {α : Type} [DecidableEq α] {β : Type} (l : List (α × β)) (a : α) (v : β)
    (h : l.lookup a = some v) : (a, v) ∈ l := by
  induction l with
  | nil => simp [List.lookup] at h
  | cons p l ih =>
    rw [List.lookup] at h
    split at h
    · rename_i hb
      injection h with h
      subst h
      have : a = p.1 := by simpa using hb
      subst this
      exact List.mem_cons_self _ _
    · exact List.mem_cons_of_mem _ (ih h)

theorem mem_lookup_succ (m : List (List Char)) (s : State) (a : Char) (v : State)
    (h : (a, v) ∈ successors m s) : (successors m s).lookup a = some v := by
  obtain ⟨x, y, o⟩ := s
  unfold successors at h ⊢
  split_ifs at h ⊢ <;>
    simp only [List.mem_append, List.mem_singleton, List.not_mem_nil, or_false, false_or,
      Prod.mk.injEq] at h <;>
    (try casesm* _ ∨ _) <;> (try casesm* _ ∧ _) <;> subst_vars <;>
    simp_all [List.lookup_cons, beq_self_eq_true]

theorem run_append (m : List (List Char)) (s : State) (p q : List Char) :
    run m s (p ++ q) = (run m s p).bind (fun t => run m t q) := by
  induction p generalizing s with
  | nil => rfl
  | cons a p ih =>
    rw [List.cons_append, run, run]
    split <;> simp [ih]

theorem run_snoc (m : List (List Char)) (s t u : State) (p : List Char) (a : Char)
    (hp : run m s p = some t) (ha : (a, u) ∈ successors m t) :
    run m s (p ++ [a]) = some u := by
  rw [run_append, hp]
  show run m t [a] = some u
  rw [run, mem_lookup_succ m t a u ha]
  rfl

theorem reach_self (m : List (List Char)) (s : State) : Reach m s s := ⟨[], rfl⟩

theorem dist_le_of_run (m : List (List Char)) (s t : State) (p : List Char)
    (h : run m s p = some t) : dist m s t ≤ p.length :=
  Nat.sInf_le ⟨p, h, rfl⟩

theorem dist_spec (m : List (List Char)) (s t : State) (h : Reach m s t) :
    ∃ p, run m s p = some t ∧ p.length = dist m s t := by
  obtain ⟨p, hp⟩ := h
  have hne : {n | ∃ q, run m s q = some t ∧ q.length = n}.Nonempty := ⟨p.length, p, hp, rfl⟩
  exact Nat.sInf_mem hne

theorem dist_self (m : List (List Char)) (s : State) : dist m s s = 0 :=
  Nat.le_zero.1 (dist_le_of_run m s s [] rfl)

theorem dist_triangle (m : List (List Char)) (s t u : State)
    (h1 : Reach m s t) (h2 : Reach m t u) : dist m s u ≤ dist m s t + dist m t u := by
  obtain ⟨p, hp, hpl⟩ := dist_spec m s t h1
  obtain ⟨q, hq, hql⟩ := dist_spec m t u h2
  have : run m s (p ++ q) = some u := by rw [run_append, hp]; exact hq
  have := dist_le_of_run m s u (p ++ q) this
  rw [List.length_append, hpl, hql] at this
  exact this

theorem reach_trans (m : List (List Char)) (s t u : State)
    (h1 : Reach m s t) (h2 : Reach m t u) : Reach m s u := by
  obtain ⟨p, hp⟩ := h1
  obtain ⟨q, hq⟩ := h2
  exact ⟨p ++ q, by rw [run_append, hp]; exact hq⟩

theorem reach_succ (m : List (List Char)) (t : State) (a : Char) (u : State)
    (ha : (a, u) ∈ successors m t) : Reach m t u :=
  ⟨[a], by rw [run, mem_lookup_succ m t a u ha]; rfl⟩

theorem dist_succ_le (m : List (List Char)) (s t u : State) (a : Char)
    (h1 : Reach m s t) (ha : (a, u) ∈ successors m t) :
    dist m s u ≤ dist m s t + 1 := by
  have := dist_triangle m s t u h1 (reach_succ m t a u ha)
  have hd1 : dist m t u ≤ 1 := by
    have : run m t [a] = some u := by rw [run, mem_lookup_succ m t a u ha]; rfl
    simpa using dist_le_of_run m t u [a] this
  omega

theorem heuristic_run_le (m : List (List Char)) (gX gY : Int) (s t : State) (p : List Char)
    (h : run m s p = some t) :
    heuristic gX gY s ≤ (p.length : Rat) + heuristic gX gY t := by
  induction p generalizing s with
  | nil =>
    rw [run] at h
    injection h with h
    subst h
    simp
  | cons a p ih =>
    rw [run] at h
    split at h
    · exact absurd h (by simp)
    · rename_i u hu
      have h1 := heuristic_consistent m gX gY s u a (lookup_mem _ _ _ hu)
      have h2 := ih u h
      have : ((a :: p).length : Rat) = (p.length : Rat) + 1 := by
        push_cast [List.length_cons]
        ring
      rw [this]
      linarith

theorem heuristic_dist_le (m : List (List Char)) (gX gY : Int) (s t : State)
    (h : Reach m s t) :
    heuristic gX gY s ≤ (dist m s t : Rat) + heuristic gX gY t := by
  obtain ⟨p, hp, hpl⟩ := dist_spec m s t h
  have := heuristic_run_le m gX gY s t p hp
  rw [hpl] at this
  exact this

theorem heuristic_goal_zero (gX gY : Int) (t : State) (h : is_goal gX gY t = true) :
    heuristic gX gY t = 0 := by
  unfold is_goal at h
  rw [decide_eq_true_eq] at h
  obtain ⟨-, h2, h3⟩ := h
  unfold heuristic
  rw [h2, h3]
  simp

theorem is_goal_eq (gX gY : Int) (t : State) (h : is_goal gX gY t = true) :
    t = ⟨gX, gY, 0⟩ := by
  unfold is_goal at h
  rw [decide_eq_true_eq] at h
  obtain ⟨h1, h2, h3⟩ := h
  cases t
  simp_all

theorem succ_safe (m : List (List Char)) (s t : State) (a : Char)
    (hm : (a, t) ∈ successors m s) :
    is_safe m t.x_cor t.y_cor = true ∧ (t.orient = 0 ∨ t.orient = 1 ∨ t.orient = 2) := by
  obtain ⟨x, y, o⟩ := s
  obtain ⟨tx, ty, t3⟩ := t
  unfold successors at hm
  split_ifs at hm <;>
    simp only [List.mem_append, List.mem_singleton, List.not_mem_nil, or_false, false_or,
      Prod.mk.injEq, State.mk.injEq] at hm <;>
    (try casesm* _ ∨ _) <;> (try casesm* _ ∧ _) <;> subst_vars <;> simp_all

theorem is_safe_dom (m : List (List Char)) (t : State)
    (hs : is_safe m t.x_cor t.y_cor = true) (ho : t.orient = 0 ∨ t.orient = 1 ∨ t.orient = 2) :
    InDomM m t := by
  rw [is_safe_iff] at hs
  exact ⟨hs.1, hs.2.1, hs.2.2.1, hs.2.2.2.1, ho⟩

theorem succ_dom (m : List (List Char)) (s t : State) (a : Char)
    (hm : (a, t) ∈ successors m s) : InDomM m t := by
  obtain ⟨h1, h2⟩ := succ_safe m s t a hm
  exact is_safe_dom m t h1 h2

theorem run_dom (m : List (List Char)) (s t : State) (p : List Char)
    (h : run m s p = some t) (hs : InDomM m s) : InDomM m t := by
  induction p generalizing s with
  | nil =>
    rw [run] at h
    injection h with h
    subst h
    exact hs
  | cons a p ih =>
    rw [run] at h
    split at h
    · exact absurd h (by simp)
    · rename_i u hu
      exact ih u h (succ_dom m s u a (lookup_mem _ _ _ hu))

theorem dom_hash_inj (m : List (List Char)) (xS yS : Int)
    (hrect : ∀ i, i < m.length → ((m.getD i []).length : Int) = xS)
    (hyS : (m.length : Int) = yS) (u v : State)
    (hu : InDomM m u) (hv : InDomM m v)
    (h : State.hashVal xS yS u = State.hashVal xS yS v) : u = v := by
  obtain ⟨hu1, hu2, hu3, hu4, hu5⟩ := hu
  obtain ⟨hv1, hv2, hv3, hv4, hv5⟩ := hv
  refine hashVal_inj xS yS u v ⟨hu3, ?_, hu1, by omega, hu5⟩ ⟨hv3, ?_, hv1, by omega, hv5⟩ h
  · rw [← hrect u.y_cor.toNat (by omega)]
    exact hu4
  · rw [← hrect v.y_cor.toNat (by omega)]
    exact hv4

theorem dom_hash_mem (m : List (List Char)) (xS yS : Int) (u : State) (hu : InDomM m u) :
    State.hashVal xS yS u ∈ domHashes m xS yS := by
  obtain ⟨ux, uy, uo⟩ := u
  obtain ⟨h1, h2, h3, h4, h5⟩ := hu
  simp only at h1 h2 h3 h4 h5
  have ho : 0 ≤ uo ∧ uo < 3 := by rcases h5 with h | h | h <;> omega
  have heq : (⟨Int.ofNat ux.toNat, Int.ofNat uy.toNat, Int.ofNat uo.toNat⟩ : State) =
      ⟨ux, uy, uo⟩ := by
    simp only [State.mk.injEq, Int.ofNat_eq_coe]
    exact ⟨by omega, by omega, by omega⟩
  have h3m : (⟨Int.ofNat ux.toNat, Int.ofNat uy.toNat, Int.ofNat uo.toNat⟩ : State) ∈
      (List.range 3).map
        (fun o => (⟨Int.ofNat ux.toNat, Int.ofNat uy.toNat, Int.ofNat o⟩ : State)) := by
    refine List.mem_map.2 ⟨uo.toNat, ?_, rfl⟩
    exact List.mem_range.2 (by omega)
  have h2m : (⟨Int.ofNat ux.toNat, Int.ofNat uy.toNat, Int.ofNat uo.toNat⟩ : State) ∈
      (List.range (m.getD uy.toNat []).length).flatMap (fun x =>
        (List.range 3).map fun o =>
          (⟨Int.ofNat x, Int.ofNat uy.toNat, Int.ofNat o⟩ : State)) := by
    refine List.mem_flatMap.2 ⟨ux.toNat, ?_, h3m⟩
    exact List.mem_range.2 (by omega)
  have h1m : (⟨Int.ofNat ux.toNat, Int.ofNat uy.toNat, Int.ofNat uo.toNat⟩ : State) ∈
      domStates m := by
    unfold domStates
    refine List.mem_flatMap.2 ⟨uy.toNat, ?_, h2m⟩
    exact List.mem_range.2 (by omega)
  unfold domHashes
  rw [List.mem_toFinset]
  refine List.mem_map.2
    ⟨⟨Int.ofNat ux.toNat, Int.ofNat uy.toNat, Int.ofNat uo.toNat⟩, h1m, ?_⟩
  rw [heq]
end Bloxorz

namespace Bloxorz

/-! ### The A* loop invariant -/

theorem mem_of_mset_mem (l : List Node) (n : Node)
    (h : n ∈ (l : Multiset Node)) : n ∈ l := by
  rwa [Multiset.mem_coe] at h

theorem heap_root_min_mem (q : List Node) (hinv : HeapInv q) (n : Node) (hn : n ∈ q) :
    (q.getD 0 dNode).costGuess ≤ n.costGuess := by
  obtain ⟨i, hi, he⟩ := List.mem_iff_getElem.1 hn
  have := heap_root_min q hinv i hi
  rwa [List.getD_eq_getElem _ _ hi, he] at this

theorem getD_zero_mem (q : List Node) (hq : q ≠ []) : q.getD 0 dNode ∈ q := by
  have h0 : 0 < q.length := List.length_pos.2 hq
  rw [List.getD_eq_getElem _ _ h0]
  exact List.getElem_mem h0

/-- The "frontier covers every optimal path" property, derived from the
invariant: any shortest path to a not-yet-closed state passes through a queue
node with optimal recorded length. -/
theorem frontier_covers (m : List (List Char)) (xS yS gX gY : Int) (init : State)
    (q : List Node) (c : Finset Int) (hInitDom : InDomM m init)
    (inv : SearchInv m xS yS gX gY init q c) :
    ∀ (p : List Char) (z : State), run m init p = some z → p.length = dist m init z →
      State.hashVal xS yS z ∉ c →
      ∃ n ∈ q, State.hashVal xS yS n.state ∉ c ∧ n.path.length = dist m init n.state ∧
        Reach m n.state z ∧ dist m init n.state + dist m n.state z = dist m init z := by
  intro p
  induction p using List.reverseRecOn with
  | nil =>
    intro z hp hlen hz
    rw [run] at hp
    injection hp with hp
    subst hp
    rcases inv.initNode with hin | ⟨n, hn, hs, hpe⟩
    · exact absurd hin hz
    · refine ⟨n, hn, ?_, ?_, ?_, ?_⟩
      · rw [hs]; exact hz
      · rw [hpe, hs, dist_self]; rfl
      · rw [hs]; exact reach_self m init
      · rw [hs, dist_self]
  | append_singleton p a ih =>
    intro z hp hlen hz
    rw [run_append] at hp
    cases hru : run m init p with
    | none => rw [hru] at hp; exact absurd hp (by simp)
    | some u =>
      rw [hru] at hp
      have hedge : (successors m u).lookup a = some z := by
        have : run m u [a] = some z := hp
        rw [run] at this
        split at this
        · exact absurd this (by simp)
        · rename_i v hv
          injection this with this
          subst this
          exact hv
      have hmem : (a, z) ∈ successors m u := lookup_mem _ _ _ hedge
      have hzlen : dist m init z = p.length + 1 := by
        rw [← hlen, List.length_append]
        rfl
      have hdzu : dist m init z ≤ dist m init u + 1 :=
        dist_succ_le m init u z a ⟨p, hru⟩ hmem
      have hdup : dist m init u ≤ p.length := dist_le_of_run m init u p hru
      have hplen : p.length = dist m init u := by omega
      by_cases hu : State.hashVal xS yS u ∈ c
      · have hud : InDomM m u := run_dom m init u p hru hInitDom
        obtain ⟨-, -, hsucc⟩ := inv.closedProps u hud hu
        obtain ⟨n, hn, hstate, hlength⟩ := hsucc a z hmem hz
        refine ⟨n, hn, ?_, ?_, ?_, ?_⟩
        · rw [hstate]; exact hz
        · rw [hstate, hlength]; omega
        · rw [hstate]; exact reach_self m z
        · rw [hstate, dist_self]; omega
      · obtain ⟨n, hn, hnc, hnlen, hreach, heq⟩ := ih u hru hplen hu
        have hreach2 : Reach m n.state z := reach_trans m n.state u z hreach
          (reach_succ m u a z hmem)
        refine ⟨n, hn, hnc, hnlen, hreach2, ?_⟩
        have h1 : dist m init z ≤ dist m init n.state + dist m n.state z := by
          obtain ⟨hp2, hrun2, -⟩ := inv.nodes n hn
          exact dist_triangle m init n.state z ⟨n.path, hrun2⟩ hreach2
        have h2 : dist m n.state z ≤ dist m n.state u + 1 :=
          dist_succ_le m n.state u z a hreach hmem
        omega

/-- The first pop of a not-yet-closed state carries a shortest path to it. -/
theorem pop_optimal (m : List (List Char)) (xS yS gX gY : Int) (init : State)
    (q : List Node) (c : Finset Int) (hInitDom : InDomM m init)
    (inv : SearchInv m xS yS gX gY init q c) (hq : q ≠ [])
    (hroot : State.hashVal xS yS (q.getD 0 dNode).state ∉ c) :
    (q.getD 0 dNode).path.length = dist m init (q.getD 0 dNode).state := by
  have hmem0 : q.getD 0 dNode ∈ q := getD_zero_mem q hq
  obtain ⟨hdom, hrun, hcost⟩ := inv.nodes _ hmem0
  have hle : dist m init (q.getD 0 dNode).state ≤ (q.getD 0 dNode).path.length :=
    dist_le_of_run m init _ _ hrun
  by_contra hne
  have hlt : dist m init (q.getD 0 dNode).state < (q.getD 0 dNode).path.length := by omega
  obtain ⟨p, hp, hplen⟩ := dist_spec m init (q.getD 0 dNode).state ⟨_, hrun⟩
  obtain ⟨n, hn, -, hnlen, hreach, heq⟩ :=
    frontier_covers m xS yS gX gY init q c hInitDom inv p _ hp hplen hroot
  have hcons := heuristic_dist_le m gX gY n.state (q.getD 0 dNode).state hreach
  obtain ⟨-, -, hncost⟩ := inv.nodes n hn
  have hmin := heap_root_min_mem q inv.heap n hn
  rw [hcost, hncost] at hmin
  have hcast1 : ((n.path.length : Nat) : Rat) = (dist m init n.state : Rat) := by
    rw [hnlen]
  have hcast2 : (dist m init n.state : Rat) + (dist m n.state (q.getD 0 dNode).state : Rat)
      = (dist m init (q.getD 0 dNode).state : Rat) := by
    rw [← Nat.cast_add, heq]
  have hcast3 : (dist m init (q.getD 0 dNode).state : Rat) + 1 ≤
      ((q.getD 0 dNode).path.length : Rat) := by
    have : (dist m init (q.getD 0 dNode).state) + 1 ≤ (q.getD 0 dNode).path.length := hlt
    exact_mod_cast this
  linarith

end Bloxorz

namespace Bloxorz

/-! ### Queue lengths and the successor fold -/

theorem siftdownFuel_length (fuel : Nat) : ∀ (x : Node) (l : List Node) (s p : Nat),
    (siftdownFuel fuel x l s p).length = l.length := by
  induction fuel with
  | zero => intro x l s p; rw [siftdownFuel]; exact List.length_set l p x
  | succ fuel ih =>
    intro x l s p
    rw [siftdownFuel]
    dsimp only
    split
    · split
      · rw [ih]; exact List.length_set l p _
      · exact List.length_set l p x
    · exact List.length_set l p x

theorem heappush_length (l : List Node) (x : Node) :
    (heappush l x).length = l.length + 1 := by
  unfold heappush
  rw [siftdownFuel_length]
  simp

theorem heappop_length (l l2 : List Node) (r : Node) (h : heappop l = some (r, l2)) :
    l.length = l2.length + 1 := by
  have hm := heappop_mem l l2 r h
  have : (l : Multiset Node).card = (r ::ₘ (l2 : Multiset Node)).card := by rw [hm]
  simpa using this

theorem mem_heappush (l : List Node) (x n : Node) :
    n ∈ heappush l x ↔ n = x ∨ n ∈ l := by
  rw [← Multiset.mem_coe, heappush_mem, Multiset.mem_cons, Multiset.mem_coe]

theorem heappop_sub (l l2 : List Node) (r : Node) (h : heappop l = some (r, l2)) :
    ∀ n ∈ l2, n ∈ l := by
  intro n hn
  have hm := heappop_mem l l2 r h
  rw [← Multiset.mem_coe, hm]
  exact Multiset.mem_cons_of_mem (Multiset.mem_coe.2 hn)

theorem heappop_cases (l l2 : List Node) (r : Node) (h : heappop l = some (r, l2)) :
    ∀ n ∈ l, n = r ∨ n ∈ l2 := by
  intro n hn
  have hm := heappop_mem l l2 r h
  have : n ∈ (l : Multiset Node) := Multiset.mem_coe.2 hn
  rw [hm, Multiset.mem_cons] at this
  rcases this with h1 | h2
  · exact Or.inl h1
  · exact Or.inr (Multiset.mem_coe.1 h2)

theorem heappop_some_ne (l : List Node) (p : Node × List Node) (h : heappop l = some p) :
    l ≠ [] := by
  intro hc
  rw [hc] at h
  exact absurd h (by rw [heappop]; simp)

theorem heappop_root (l l2 : List Node) (r : Node) (hinv : HeapInv l)
    (h : heappop l = some (r, l2)) : r = l.getD 0 dNode ∧ HeapInv l2 := by
  obtain ⟨l3, h3, hinv3⟩ := heappop_spec l (heappop_some_ne l _ h) hinv
  rw [h] at h3
  injection h3 with h3
  rw [Prod.mk.injEq] at h3
  obtain ⟨h1, h2⟩ := h3
  exact ⟨h1, by rw [h2]; exact hinv3⟩

theorem expandFold_heapInv (m : List (List Char)) (xS yS gX gY : Int) (cur : Node)
    (c : Finset Int) (d : List Node) (hd : HeapInv d) :
    HeapInv (expandFold m xS yS gX gY cur c d) := by
  unfold expandFold
  generalize successors m cur.state = l
  induction l generalizing d with
  | nil => exact hd
  | cons a l ih =>
    rw [List.foldl_cons]
    apply ih
    split
    · exact hd
    · exact heappush_heapInv d _ hd

theorem expandFold_mem (m : List (List Char)) (xS yS gX gY : Int) (cur : Node)
    (c : Finset Int) (d : List Node) (n : Node) :
    n ∈ expandFold m xS yS gX gY cur c d ↔
      n ∈ d ∨ ∃ av ∈ successors m cur.state,
        State.hashVal xS yS av.2 ∉ c ∧ n = mkNode gX gY cur av := by
  unfold expandFold
  generalize successors m cur.state = l
  induction l generalizing d with
  | nil => simp
  | cons a l ih =>
    rw [List.foldl_cons, ih]
    by_cases hc : State.hashVal xS yS a.2 ∈ c
    · rw [if_pos hc]
      constructor
      · rintro (hn | ⟨av, h1, h2, h3⟩)
        · exact Or.inl hn
        · exact Or.inr ⟨av, List.mem_cons_of_mem _ h1, h2, h3⟩
      · rintro (hn | ⟨av, h1, h2, h3⟩)
        · exact Or.inl hn
        · rcases List.mem_cons.1 h1 with h1 | h1
          · subst h1; exact absurd hc h2
          · exact Or.inr ⟨av, h1, h2, h3⟩
    · rw [if_neg hc]
      constructor
      · rintro (hn | ⟨av, h1, h2, h3⟩)
        · rcases (mem_heappush d _ n).1 hn with h | h
          · exact Or.inr ⟨a, List.mem_cons_self _ _, hc, h⟩
          · exact Or.inl h
        · exact Or.inr ⟨av, List.mem_cons_of_mem _ h1, h2, h3⟩
      · rintro (hn | ⟨av, h1, h2, h3⟩)
        · exact Or.inl ((mem_heappush d _ n).2 (Or.inr hn))
        · rcases List.mem_cons.1 h1 with h1 | h1
          · subst h1
            exact Or.inl ((mem_heappush d _ n).2 (Or.inl h3))
          · exact Or.inr ⟨av, h1, h2, h3⟩

theorem expandFold_length (m : List (List Char)) (xS yS gX gY : Int) (cur : Node)
    (c : Finset Int) (d : List Node) :
    (expandFold m xS yS gX gY cur c d).length ≤ d.length + (successors m cur.state).length := by
  unfold expandFold
  generalize successors m cur.state = l
  induction l generalizing d with
  | nil => simp
  | cons a l ih =>
    rw [List.foldl_cons, List.length_cons]
    have hstep :
        (if State.hashVal xS yS a.2 ∈ c then d
          else heappush d (mkNode gX gY cur a)).length ≤ d.length + 1 := by
      split
      · omega
      · rw [heappush_length]
    have hrec := ih (if State.hashVal xS yS a.2 ∈ c then d
      else heappush d (mkNode gX gY cur a))
    omega

end Bloxorz

namespace Bloxorz

/-! ### Preservation of the invariant by the loop body -/

/-- Popping an already-closed node preserves the invariant. -/
theorem inv_skip (m : List (List Char)) (xS yS gX gY : Int) (init : State)
    (q q2 : List Node) (c : Finset Int) (r : Node)
    (inv : SearchInv m xS yS gX gY init q c) (hpop : heappop q = some (r, q2))
    (hin : State.hashVal xS yS r.state ∈ c) :
    SearchInv m xS yS gX gY init q2 c := by
  have hsub := heappop_sub q q2 r hpop
  have hcases := heappop_cases q q2 r hpop
  refine ⟨(heappop_root q q2 r inv.heap hpop).2, ?_, ?_, inv.closedDom, ?_, ?_⟩
  · exact fun n hn => inv.nodes n (hsub n hn)
  · exact fun n hn => inv.emptyPath n (hsub n hn)
  · intro u hud huc
    obtain ⟨hg, hr, hsucc⟩ := inv.closedProps u hud huc
    refine ⟨hg, hr, ?_⟩
    intro a v hav hvc
    obtain ⟨n, hn, hs, hl⟩ := hsucc a v hav hvc
    rcases hcases n hn with h | h
    · exfalso
      apply hvc
      rw [← hs, h]
      exact hin
    · exact ⟨n, h, hs, hl⟩
  · rcases inv.initNode with h | ⟨n, hn, hs, hp⟩
    · exact Or.inl h
    · rcases hcases n hn with h | h
      · left
        rw [← hs, h]
        exact hin
      · exact Or.inr ⟨n, h, hs, hp⟩

/-- Expanding a freshly popped non-goal node preserves the invariant, with
its hash added to the closed set. -/
theorem inv_expand (m : List (List Char)) (xS yS gX gY : Int) (init : State)
    (q q2 : List Node) (c : Finset Int) (r : Node)
    (hrect : ∀ i, i < m.length → ((m.getD i []).length : Int) = xS)
    (hyS : (m.length : Int) = yS) (hInitDom : InDomM m init)
    (inv : SearchInv m xS yS gX gY init q c) (hpop : heappop q = some (r, q2))
    (hnin : State.hashVal xS yS r.state ∉ c)
    (hgoal : is_goal gX gY r.state = false) :
    SearchInv m xS yS gX gY init (expandFold m xS yS gX gY r c q2)
      (insert (State.hashVal xS yS r.state) c) := by
  have hsub := heappop_sub q q2 r hpop
  obtain ⟨hroot, hheap2⟩ := heappop_root q q2 r inv.heap hpop
  have hrq : r ∈ q := by
    rw [hroot]
    exact getD_zero_mem q (heappop_some_ne q _ hpop)
  obtain ⟨hrdom, hrrun, hrcost⟩ := inv.nodes r hrq
  have hropt : r.path.length = dist m init r.state := by
    have := pop_optimal m xS yS gX gY init q c hInitDom inv
      (heappop_some_ne q _ hpop) (by rw [← hroot]; exact hnin)
    rw [← hroot] at this
    exact this
  refine ⟨expandFold_heapInv m xS yS gX gY r c q2 hheap2, ?_, ?_, ?_, ?_, ?_⟩
  · intro n hn
    rcases (expandFold_mem m xS yS gX gY r c q2 n).1 hn with h | ⟨av, hav, hac, hne⟩
    · exact inv.nodes n (hsub n h)
    · obtain ⟨a, v⟩ := av
      subst hne
      refine ⟨succ_dom m r.state v a hav, ?_, ?_⟩
      · exact run_snoc m init r.state v r.path a hrrun hav
      · rw [mkNode]
        dsimp only
        rw [List.length_append, List.length_singleton]
  · intro n hn hp
    rcases (expandFold_mem m xS yS gX gY r c q2 n).1 hn with h | ⟨av, hav, hac, hne⟩
    · exact inv.emptyPath n (hsub n h) hp
    · exfalso
      rw [hne, mkNode] at hp
      exact absurd hp (by simp)
  · intro hv hvc
    rcases Finset.mem_insert.1 hvc with h | h
    · exact ⟨r.state, hrdom, h.symm⟩
    · exact inv.closedDom hv h
  · intro u hud huc
    rcases Finset.mem_insert.1 huc with h | h
    · have hur : u = r.state := dom_hash_inj m xS yS hrect hyS u r.state hud hrdom h
      subst hur
      refine ⟨hgoal, ⟨r.path, hrrun⟩, ?_⟩
      intro a v hav hvc2
      have hvnc : State.hashVal xS yS v ∉ c := fun hc =>
        hvc2 (Finset.mem_insert_of_mem hc)
      refine ⟨mkNode gX gY r (a, v), ?_, rfl, ?_⟩
      · exact (expandFold_mem m xS yS gX gY r c q2 _).2
          (Or.inr ⟨(a, v), hav, hvnc, rfl⟩)
      · rw [mkNode]
        dsimp only
        rw [List.length_append, List.length_singleton, hropt]
    · obtain ⟨hg, hr2, hsucc⟩ := inv.closedProps u hud h
      refine ⟨hg, hr2, ?_⟩
      intro a v hav hvc2
      have hvnc : State.hashVal xS yS v ∉ c := fun hc =>
        hvc2 (Finset.mem_insert_of_mem hc)
      obtain ⟨n, hn, hs, hl⟩ := hsucc a v hav hvnc
      rcases heappop_cases q q2 r hpop n hn with hcase | hcase
      · exfalso
        apply hvc2
        rw [← hs, hcase]
        exact Finset.mem_insert_self _ _
      · exact ⟨n, (expandFold_mem m xS yS gX gY r c q2 n).2 (Or.inl hcase), hs, hl⟩
  · rcases inv.initNode with h | ⟨n, hn, hs, hp⟩
    · exact Or.inl (Finset.mem_insert_of_mem h)
    · rcases heappop_cases q q2 r hpop n hn with hcase | hcase
      · left
        rw [← hs, hcase]
        exact Finset.mem_insert_self _ _
      · exact Or.inr ⟨n, (expandFold_mem m xS yS gX gY r c q2 n).2 (Or.inl hcase), hs, hp⟩

end Bloxorz

namespace Bloxorz

/-! ### Glue between the queue object and the data-level lemmas -/

theorem solveMeasure_eq (e : Engine) :
    solveMeasure e = measureD e.map e.xSize e.ySize e.queue.data e.closed := rfl

theorem heappop_nonempty (l : List Node) (hne : l ≠ []) :
    ∃ p, heappop l = some p := by
  rw [heappop]
  cases hlast : l.getLast? with
  | none =>
    rw [List.getLast?_eq_getLast _ hne] at hlast
    exact absurd hlast (by simp)
  | some lastelt =>
    dsimp only
    split
    · exact ⟨_, rfl⟩
    · exact ⟨_, rfl⟩

theorem popMin_eq (q : PriorityQueue) (r : Node) (d2 : List Node)
    (h : heappop q.data = some (r, d2)) :
    q.popMin = some (r, ⟨d2, q.counter - 1⟩) := by
  rw [PriorityQueue.popMin, h]
  rfl

theorem solveFold_data (xS yS gX gY : Int) (cur : Node)
    (c : Finset Int) : ∀ (l : List (Char × State)) (q : PriorityQueue),
    (l.foldl (fun qq av => if State.hashVal xS yS av.2 ∈ c then qq
        else qq.push (mkNode gX gY cur av)) q).data
      = l.foldl (fun dd av => if State.hashVal xS yS av.2 ∈ c then dd
          else heappush dd (mkNode gX gY cur av)) q.data := by
  intro l
  induction l with
  | nil => intro q; rfl
  | cons a l ih =>
    intro q
    rw [List.foldl_cons, List.foldl_cons, ih]
    congr 1
    split
    · rfl
    · rfl

theorem solveFold_counter (xS yS gX gY : Int) (cur : Node)
    (c : Finset Int) : ∀ (l : List (Char × State)) (q : PriorityQueue),
    q.counter = (q.data.length : Int) →
    (l.foldl (fun qq av => if State.hashVal xS yS av.2 ∈ c then qq
        else qq.push (mkNode gX gY cur av)) q).counter
      = ((l.foldl (fun qq av => if State.hashVal xS yS av.2 ∈ c then qq
          else qq.push (mkNode gX gY cur av)) q).data.length : Int) := by
  intro l
  induction l with
  | nil => intro q hq; exact hq
  | cons a l ih =>
    intro q hq
    rw [List.foldl_cons]
    apply ih
    split
    · exact hq
    · rw [PriorityQueue.push]
      dsimp only
      rw [heappush_length]
      push_cast
      omega

theorem expandFold_eq_fold (m : List (List Char)) (xS yS gX gY : Int) (cur : Node)
    (c : Finset Int) (d : List Node) :
    (successors m cur.state).foldl (fun dd av => if State.hashVal xS yS av.2 ∈ c then dd
      else heappush dd (mkNode gX gY cur av)) d = expandFold m xS yS gX gY cur c d := rfl

/-- When the counter is exhausted, the loop returns at once. -/
theorem solveAux_empty (m : List (List Char)) (xS yS gX gY : Int) (fuel : Nat)
    (q : PriorityQueue) (c : Finset Int) (h : q.counter ≤ 0) :
    solveAux m xS yS gX gY fuel q c = ([], q, c) := by
  cases fuel with
  | zero => rw [solveAux]
  | succ fuel =>
    rw [solveAux]
    rw [if_neg]
    intro hc
    rw [PriorityQueue.not_empty, decide_eq_true_eq] at hc
    omega

/-- The goal-distance minimized by the optimality property is the distance
to the unique goal-satisfying state. -/
theorem goalDist_eq_dist (m : List (List Char)) (gX gY : Int) (s : State) :
    goalDist m gX gY s = dist m s ⟨gX, gY, 0⟩ := by
  unfold goalDist dist
  congr 1
  ext n
  simp only [Set.mem_setOf_eq]
  constructor
  · rintro ⟨p, t, h1, h2, h3⟩
    rw [is_goal_eq gX gY t h2] at h1
    exact ⟨p, h1, h3⟩
  · rintro ⟨p, h1, h3⟩
    exact ⟨p, ⟨gX, gY, 0⟩, h1, by simp [is_goal], h3⟩

end Bloxorz

namespace Bloxorz

/-! ### Well-formedness of a constructed engine -/

/-- Facts about any engine built by `initEngine` on a rectangular board:
row lengths match `xSize`, the initial and goal states are in the grid,
the initial state is not already a goal, the closed set starts empty and
the queue holds exactly the initial node. -/
theorem initEngine_setup (b : List (List Char)) (e : Engine) (w : Nat)
    (hrect : Rect b w) (h : initEngine b = some e) :
    (∀ i, i < e.map.length → ((e.map.getD i []).length : Int) = e.xSize) ∧
    ((e.map.length : Int) = e.ySize) ∧
    InDomM e.map e.initial ∧
    InDomM e.map ⟨e.goalX, e.goalY, 0⟩ ∧
    is_goal e.goalX e.goalY e.initial = false ∧
    e.closed = (∅ : Finset Int) ∧
    e.queue = ⟨[⟨heuristic e.goalX e.goalY e.initial, e.initial, []⟩], 1⟩ := by
  obtain ⟨gy, gx, sy, sx, hG, hS, hgx, hgy, hxS, hyS, hcl, hq, hix, hiy, hbr⟩ :=
    initEngine_elim b e h
  obtain ⟨hgylt, hgcol⟩ := findRow_sound 'G' b gy gx hG
  obtain ⟨hgxlt, hgcell⟩ := findCol_sound 'G' _ gx hgcol
  obtain ⟨hsylt, hscol⟩ := findRow_sound 'S' b sy sx hS
  obtain ⟨hsxlt, hscell⟩ := findCol_sound 'S' _ sx hscol
  have hblen : 0 < b.length := by omega
  have hw0 : (b.getD 0 []).length = w := rowlen_of_rect b w hrect 0 hblen
  have hlen : e.map.length = b.length := by
    rcases hbr with ⟨-, hm, -⟩ | ⟨-, -, hm, -⟩ | ⟨-, -, hm, -⟩ <;>
      rw [hm] <;> simp
  have hrect2 : Rect e.map w := by
    intro r hr
    rcases hbr with ⟨-, hm, -⟩ | ⟨-, hb2, hm, -⟩ | ⟨-, -, hm, -⟩
    · rw [hm] at hr
      rcases List.mem_or_eq_of_mem_set hr with h2 | h2
      · exact hrect r h2
      · rw [h2, strReplace_length _ _ _ (by decide)]
        exact rowlen_of_rect b w hrect sy hsylt
    · rw [hm] at hr
      rcases List.mem_or_eq_of_mem_set hr with h2 | h2
      · rcases List.mem_or_eq_of_mem_set h2 with h3 | h3
        · exact hrect r h3
        · rw [h3, strReplace_length _ _ _ (by decide)]
          exact rowlen_of_rect b w hrect sy hsylt
      · rw [h2, strReplace_length _ _ _ (by decide)]
        exact rowlen_of_rect b w hrect (sy + 1) hb2.1
    · rw [hm] at hr
      rcases List.mem_or_eq_of_mem_set hr with h2 | h2
      · exact hrect r h2
      · rw [h2, strReplace_length _ _ _ (by decide)]
        exact rowlen_of_rect b w hrect sy hsylt
  have hxw : e.xSize = (w : Int) := by rw [hxS, hw0]
  refine ⟨?_, ?_, ?_, ?_, ?_, hcl, hq⟩
  · intro i hi
    rw [rowlen_of_rect e.map w hrect2 i hi, hxw]
  · rw [hlen, hyS]
  · have hsw : sx < w := by
      rw [← rowlen_of_rect b w hrect sy hsylt]
      exact hsxlt
    refine ⟨by rw [hiy]; exact Int.natCast_nonneg sy, ?_, by rw [hix]; exact Int.natCast_nonneg sx,
      ?_, ?_⟩
    · rw [hiy, hlen]
      exact_mod_cast hsylt
    · rw [hix, hiy, Int.toNat_natCast,
        rowlen_of_rect e.map w hrect2 sy (by rw [hlen]; exact hsylt)]
      exact_mod_cast hsw
    · rcases hbr with ⟨-, -, ho⟩ | ⟨-, -, -, ho⟩ | ⟨-, -, -, ho⟩ <;> rw [ho] <;> simp
  · have hgw : gx < w := by
      rw [← rowlen_of_rect b w hrect gy hgylt]
      exact hgxlt
    refine ⟨?_, ?_, ?_, ?_, Or.inl rfl⟩
    · dsimp only
      rw [hgy]
      exact Int.natCast_nonneg gy
    · dsimp only
      rw [hgy, hlen]
      exact_mod_cast hgylt
    · dsimp only
      rw [hgx]
      exact Int.natCast_nonneg gx
    · dsimp only
      rw [hgx, hgy, Int.toNat_natCast,
        rowlen_of_rect e.map w hrect2 gy (by rw [hlen]; exact hgylt)]
      exact_mod_cast hgw
  · apply decide_eq_false
    rintro ⟨h0, hx2, hy2⟩
    rcases hbr with ⟨-, -, ho⟩ | ⟨-, -, -, ho⟩ | ⟨-, -, -, ho⟩
    · rw [ho] at h0; exact absurd h0 (by decide)
    · rw [ho] at h0; exact absurd h0 (by decide)
    · rw [hix, hgx] at hx2
      rw [hiy, hgy] at hy2
      have hxe : sx = gx := by exact_mod_cast hx2
      have hye : sy = gy := by exact_mod_cast hy2
      rw [hxe, hye, hgcell] at hscell
      exact absurd hscell (by decide)

end Bloxorz

namespace Bloxorz

/-- One unfolding of the loop body when the counter is positive: pop the
root and dispatch on closedness and the goal test. -/
theorem solveAux_step (m : List (List Char)) (xS yS gX gY : Int) (fuel : Nat)
    (q : PriorityQueue) (c : Finset Int) (r : Node) (d2 : List Node)
    (hne : q.not_empty = true) (hpop : heappop q.data = some (r, d2)) :
    solveAux m xS yS gX gY (fuel + 1) q c =
      if State.hashVal xS yS r.state ∈ c then
        solveAux m xS yS gX gY fuel ⟨d2, q.counter - 1⟩ c
      else if is_goal gX gY r.state then (r.path, ⟨d2, q.counter - 1⟩, c)
      else
        solveAux m xS yS gX gY fuel
          ((successors m r.state).foldl
            (fun qq av =>
              if State.hashVal xS yS av.2 ∈ c then qq
              else qq.push (mkNode gX gY r av)) ⟨d2, q.counter - 1⟩)
          (insert (State.hashVal xS yS r.state) c) := by
  rw [solveAux, if_pos hne, popMin_eq q r d2 hpop]
  rfl

end Bloxorz

namespace Bloxorz

/-- Master correctness property of the search loop, by induction on fuel:
provided the measure bounds the fuel, the counter equals the queue length
and the invariant holds, (1) a non-empty returned path replays to a goal
state along a shortest path, (2) if some goal state is reachable the
returned path is non-empty, and (3) if the returned path is empty the final
queue is exhausted. -/
theorem solveAux_master (m : List (List Char)) (xS yS gX gY : Int) (init : State)
    (hrect : ∀ i, i < m.length → ((m.getD i []).length : Int) = xS)
    (hyS : (m.length : Int) = yS) (hInitDom : InDomM m init)
    (hginit : is_goal gX gY init = false) :
    ∀ (fuel : Nat) (q : PriorityQueue) (c : Finset Int),
      measureD m xS yS q.data c ≤ fuel →
      q.counter = (q.data.length : Int) →
      SearchInv m xS yS gX gY init q.data c →
      ((solveAux m xS yS gX gY fuel q c).1 ≠ [] →
        ∃ t, run m init (solveAux m xS yS gX gY fuel q c).1 = some t ∧
          is_goal gX gY t = true ∧
          (solveAux m xS yS gX gY fuel q c).1.length = dist m init t) ∧
      (∀ t, Reach m init t → is_goal gX gY t = true →
        (solveAux m xS yS gX gY fuel q c).1 ≠ []) ∧
      ((solveAux m xS yS gX gY fuel q c).1 = [] →
        (solveAux m xS yS gX gY fuel q c).2.1.counter ≤ 0) := by
  intro fuel
  induction fuel with
  | zero =>
    intro q c hmeas hcnt inv
    exfalso
    rw [measureD] at hmeas
    omega
  | succ fuel ih =>
    intro q c hmeas hcnt inv
    by_cases hne : q.not_empty = true
    · have hqne : q.data ≠ [] := by
        intro hq0
        rw [PriorityQueue.not_empty, decide_eq_true_eq] at hne
        rw [hq0] at hcnt
        simp only [List.length_nil, Nat.cast_zero] at hcnt
        omega
      obtain ⟨⟨r, d2⟩, hpop⟩ := heappop_nonempty q.data hqne
      have hlen2 : q.data.length = d2.length + 1 := heappop_length q.data d2 r hpop
      obtain ⟨hroot, -⟩ := heappop_root q.data d2 r inv.heap hpop
      have hrq : r ∈ q.data := by
        rw [hroot]
        exact getD_zero_mem q.data hqne
      obtain ⟨hrdom, hrrun, -⟩ := inv.nodes r hrq
      rw [solveAux_step m xS yS gX gY fuel q c r d2 hne hpop]
      by_cases hrc : State.hashVal xS yS r.state ∈ c
      · rw [if_pos hrc]
        apply ih ⟨d2, q.counter - 1⟩ c
        · rw [measureD] at hmeas ⊢
          dsimp only
          omega
        · dsimp only
          rw [hcnt]
          push_cast
          omega
        · exact inv_skip m xS yS gX gY init q.data d2 c r inv hpop hrc
      · rw [if_neg hrc]
        by_cases hg : is_goal gX gY r.state = true
        · rw [if_pos hg]
          have hropt : r.path.length = dist m init r.state := by
            have := pop_optimal m xS yS gX gY init q.data c hInitDom inv hqne
              (by rw [← hroot]; exact hrc)
            rw [← hroot] at this
            exact this
          have hrne : r.path ≠ [] := by
            intro h0
            have he := inv.emptyPath r hrq h0
            rw [he, hginit] at hg
            exact absurd hg (by decide)
          exact ⟨fun _ => ⟨r.state, hrrun, hg, hropt⟩, fun t _ _ => hrne,
            fun h => absurd h hrne⟩
        · rw [if_neg hg]
          have hgf : is_goal gX gY r.state = false := by
            cases hb : is_goal gX gY r.state
            · rfl
            · exact absurd hb hg
          set q3 := (successors m r.state).foldl
            (fun qq av => if State.hashVal xS yS av.2 ∈ c then qq
              else qq.push (mkNode gX gY r av)) (⟨d2, q.counter - 1⟩ : PriorityQueue) with hq3
          have hdata : q3.data = expandFold m xS yS gX gY r c d2 := by
            rw [hq3, solveFold_data, ← expandFold_eq_fold]
          have hcnt1 : (⟨d2, q.counter - 1⟩ : PriorityQueue).counter
              = (((⟨d2, q.counter - 1⟩ : PriorityQueue).data).length : Int) := by
            dsimp only
            rw [hcnt]
            push_cast
            omega
          have hcnt3 : q3.counter = (q3.data.length : Int) :=
            solveFold_counter xS yS gX gY r c _ _ hcnt1
          have hinv3 : SearchInv m xS yS gX gY init q3.data
              (insert (State.hashVal xS yS r.state) c) := by
            rw [hdata]
            exact inv_expand m xS yS gX gY init q.data d2 c r hrect hyS hInitDom inv
              hpop hrc hgf
          have hhm : State.hashVal xS yS r.state ∈ domHashes m xS yS :=
            dom_hash_mem m xS yS r.state hrdom
          have hsd : State.hashVal xS yS r.state ∈ (domHashes m xS yS) \ c :=
            Finset.mem_sdiff.2 ⟨hhm, hrc⟩
          have hcard : ((domHashes m xS yS) \ (insert (State.hashVal xS yS r.state) c)).card
              = ((domHashes m xS yS) \ c).card - 1 := by
            rw [Finset.sdiff_insert, Finset.card_erase_of_mem hsd]
          have hcardpos : 0 < ((domHashes m xS yS) \ c).card :=
            Finset.card_pos.2 ⟨_, hsd⟩
          have hlen3 : q3.data.length ≤ d2.length + 4 := by
            rw [hdata]
            have h1 := expandFold_length m xS yS gX gY r c d2
            have h2 := successors_card_le m r.state
            omega
          apply ih q3 (insert (State.hashVal xS yS r.state) c)
          · rw [measureD] at hmeas ⊢
            omega
          · exact hcnt3
          · exact hinv3
    · have hc0 : q.counter ≤ 0 := by
        rw [PriorityQueue.not_empty] at hne
        simp only [decide_eq_true_eq] at hne
        omega
      rw [solveAux_empty m xS yS gX gY (fuel + 1) q c hc0]
      have hqnil : q.data = [] := by
        have h1 : (q.data.length : Int) ≤ 0 := by
          rw [← hcnt]
          exact hc0
        have h2 : q.data.length = 0 := by omega
        exact List.eq_nil_of_length_eq_zero h2
      refine ⟨fun h => absurd rfl h, ?_, fun _ => hc0⟩
      intro t hreach hgoal
      exfalso
      obtain ⟨p, hp, hplen⟩ := dist_spec m init t hreach
      have htdom : InDomM m t := run_dom m init t p hp hInitDom
      by_cases htc : State.hashVal xS yS t ∈ c
      · obtain ⟨hgl, -, -⟩ := inv.closedProps t htdom htc
        rw [hgoal] at hgl
        exact absurd hgl (by decide)
      · obtain ⟨n, hn, -⟩ :=
          frontier_covers m xS yS gX gY init q.data c hInitDom inv p t hp hplen htc
        rw [hqnil] at hn
        exact absurd hn (List.not_mem_nil n)

end Bloxorz

namespace Bloxorz

/-- The invariant holds for the queue and closed set of a fresh engine. -/
theorem init_searchInv (m : List (List Char)) (xS yS gX gY : Int) (init : State)
    (hInitDom : InDomM m init) :
    SearchInv m xS yS gX gY init [⟨heuristic gX gY init, init, []⟩] ∅ := by
  refine ⟨?_, ?_, ?_, ?_, ?_, ?_⟩
  · intro i h0 h1
    simp only [List.length_singleton] at h1
    omega
  · intro n hn
    rw [List.mem_singleton] at hn
    subst hn
    exact ⟨hInitDom, rfl, by simp⟩
  · intro n hn _
    rw [List.mem_singleton] at hn
    rw [hn]
  · intro hv hvc
    exact absurd hvc (Finset.not_mem_empty hv)
  · intro u _ huc
    exact absurd huc (Finset.not_mem_empty _)
  · exact Or.inr ⟨⟨heuristic gX gY init, init, []⟩, List.mem_singleton.2 rfl, rfl, rfl⟩

theorem solve_fst (e : Engine) : (solve e).1 =
    (solveAux e.map e.xSize e.ySize e.goalX e.goalY (solveMeasure e) e.queue e.closed).1 := rfl

theorem run_prefix (m : List (List Char)) (s : State) (p1 p2 : List Char) (t : State)
    (h : run m s (p1 ++ p2) = some t) :
    ∃ u, run m s p1 = some u ∧ run m u p2 = some t := by
  rw [run_append] at h
  cases hu : run m s p1 with
  | none =>
    rw [hu] at h
    exact absurd h (by simp)
  | some u =>
    rw [hu] at h
    exact ⟨u, rfl, h⟩

/-- The hypotheses of the master theorem, assembled for a fresh engine. -/
theorem solve_master_engine (b : List (List Char)) (e : Engine) (w : Nat)
    (hrect : Rect b w) (hinit : initEngine b = some e) :
    ((solve e).1 ≠ [] →
      ∃ t, run e.map e.initial (solve e).1 = some t ∧
        is_goal e.goalX e.goalY t = true ∧
        (solve e).1.length = dist e.map e.initial t) ∧
    (∀ t, Reach e.map e.initial t → is_goal e.goalX e.goalY t = true →
      (solve e).1 ≠ []) ∧
    ((solve e).1 = [] → (solve e).2.queue.counter ≤ 0) := by
  obtain ⟨hrows, hys, hidom, -, hgi, hcl, hq⟩ := initEngine_setup b e w hrect hinit
  have hcnt : e.queue.counter = (e.queue.data.length : Int) := by
    rw [hq]
    simp
  have hinv : SearchInv e.map e.xSize e.ySize e.goalX e.goalY e.initial
      e.queue.data e.closed := by
    rw [hq, hcl]
    exact init_searchInv e.map e.xSize e.ySize e.goalX e.goalY e.initial hidom
  have hmeas : measureD e.map e.xSize e.ySize e.queue.data e.closed ≤ solveMeasure e :=
    le_of_eq (solveMeasure_eq e).symm
  exact solveAux_master e.map e.xSize e.ySize e.goalX e.goalY e.initial hrows hys hidom hgi
    (solveMeasure e) e.queue e.closed hmeas hcnt hinv

end Bloxorz

namespace Bloxorz

/-- C1: on a well-formed board (rectangular, one goal cell) whose engine
construction succeeds, if any goal-satisfying state is reachable from the
initial state via `successors`, the path returned by the first `solve` call
reaches a goal-satisfying state and its length equals the minimum number of
actions over all paths from the initial state to a goal-satisfying state. -/
theorem C1_solve_optimal (b : List (List Char)) (e : Engine) (w : Nat)
    (hrect : Rect b w) (hone : OneGoal b) (hinit : initEngine b = some e)
    (hreach : ∃ p t, run e.map e.initial p = some t ∧
      is_goal e.goalX e.goalY t = true) :
    (∃ t, run e.map e.initial (solve e).1 = some t ∧
      is_goal e.goalX e.goalY t = true) ∧
    (solve e).1.length = goalDist e.map e.goalX e.goalY e.initial := by
  obtain ⟨m1, m2, -⟩ := solve_master_engine b e w hrect hinit
  obtain ⟨p, t, hp, ht⟩ := hreach
  have hne := m2 t ⟨p, hp⟩ ht
  obtain ⟨t2, ht2run, ht2goal, ht2len⟩ := m1 hne
  refine ⟨⟨t2, ht2run, ht2goal⟩, ?_⟩
  rw [is_goal_eq e.goalX e.goalY t2 ht2goal] at ht2len
  rw [ht2len, goalDist_eq_dist]

/-- C10: every non-empty action sequence returned by `solve` is replayable:
each prefix of it successfully looks up its next action in the successors
of the state reached so far, and the full sequence reaches a state
satisfying `is_goal` — the property `print_result` relies on. -/
theorem C10_path_replayable (b : List (List Char)) (e : Engine) (w : Nat)
    (hrect : Rect b w) (hinit : initEngine b = some e)
    (hne : (solve e).1 ≠ []) :
    (∃ t, run e.map e.initial (solve e).1 = some t ∧
      is_goal e.goalX e.goalY t = true) ∧
    (∀ p1 p2, (solve e).1 = p1 ++ p2 → ∃ u, run e.map e.initial p1 = some u) := by
  obtain ⟨m1, -, -⟩ := solve_master_engine b e w hrect hinit
  obtain ⟨t, htrun, htgoal, -⟩ := m1 hne
  refine ⟨⟨t, htrun, htgoal⟩, ?_⟩
  intro p1 p2 hsplit
  rw [hsplit] at htrun
  obtain ⟨u, hu, -⟩ := run_prefix e.map e.initial p1 p2 t htrun
  exact ⟨u, hu⟩

end Bloxorz

namespace Bloxorz

/-- C4 (corrected): `solve` is not idempotent in general — the first call
consumes the shared frontier — but a failed search is stable: if the first
call returns the empty sequence, so does a second call on the same engine. -/
theorem C4_solve_rerun (b : List (List Char)) (e : Engine) (w : Nat)
    (hrect : Rect b w) (hinit : initEngine b = some e)
    (h1 : (solve e).1 = []) : (solve ((solve e).2)).1 = [] := by
  obtain ⟨-, -, m3⟩ := solve_master_engine b e w hrect hinit
  have hc := m3 h1
  rw [solve_fst, solveAux_empty _ _ _ _ _ _ _ _ hc]

/-- C4, counterexample to the literal claim: on the board `SOOG` the first
call to `solve` returns `RR` but a second call on the same engine returns
the empty sequence — `solve` is not idempotent. -/
theorem C4_not_idempotent :
    initEngine [['S', 'O', 'O', 'G']] = some eC4 ∧
    (solve eC4).1 = ['R', 'R'] ∧
    (solve ((solve eC4).2)).1 = [] ∧
    (['R', 'R'] : List Char) ≠ [] :=
  ⟨rfl, rfl, rfl, by decide⟩

theorem C4_solve_rerun_witness :
    (Rect [['S', 'O', 'G']] 3 ∧ initEngine [['S', 'O', 'G']] = some eSOG ∧
      (solve eSOG).1 = []) ∧
    (solve ((solve eSOG).2)).1 = [] :=
  ⟨⟨by unfold Rect; decide, rfl, rfl⟩,
    C4_solve_rerun [['S', 'O', 'G']] eSOG 3 (by unfold Rect; decide) rfl rfl⟩

/-- C5: a terminated search is not an error: a `solve` call whose frontier
counter is exhausted returns the empty sequence and leaves the engine
unchanged, and a search whose first popped node is an unclosed goal-
satisfying initial state also returns the empty sequence (its recorded path
is empty), so the two outcomes coincide on the returned value. -/
theorem C5_empty_frontier_or_goal_initial :
    (∀ e : Engine, e.queue.counter ≤ 0 → (solve e).1 = [] ∧ (solve e).2 = e) ∧
    (∀ (m : List (List Char)) (xS yS gX gY : Int) (fuel : Nat) (cg : Rat)
      (init : State) (c : Finset Int), is_goal gX gY init = true →
      State.hashVal xS yS init ∉ c →
      (solveAux m xS yS gX gY (fuel + 1) ⟨[⟨cg, init, []⟩], 1⟩ c).1 = []) := by
  constructor
  · intro e h
    have hs := solveAux_empty e.map e.xSize e.ySize e.goalX e.goalY
      (solveMeasure e) e.queue e.closed h
    rw [solve]
    dsimp only
    rw [hs]
    exact ⟨rfl, rfl⟩
  · intro m xS yS gX gY fuel cg init c hgoal hnin
    have hpop : heappop [⟨cg, init, []⟩] = some (⟨cg, init, []⟩, []) := rfl
    rw [solveAux_step m xS yS gX gY fuel ⟨[⟨cg, init, []⟩], 1⟩ c ⟨cg, init, []⟩ []
      rfl hpop]
    dsimp only
    rw [if_neg hnin, if_pos hgoal]

theorem C5_empty_frontier_or_goal_initial_witness :
    ((solve ⟨[['G']], ∅, ⟨[], 0⟩, 1, 1, 0, 0, ⟨0, 0, 0⟩⟩).1 = [] ∧
      (solve ⟨[['G']], ∅, ⟨[], 0⟩, 1, 1, 0, 0, ⟨0, 0, 0⟩⟩).2 =
        ⟨[['G']], ∅, ⟨[], 0⟩, 1, 1, 0, 0, ⟨0, 0, 0⟩⟩) ∧
    (solveAux [['G']] 1 1 0 0 (5 + 1) ⟨[⟨0, ⟨0, 0, 0⟩, []⟩], 1⟩ ∅).1 = [] :=
  ⟨C5_empty_frontier_or_goal_initial.1 ⟨[['G']], ∅, ⟨[], 0⟩, 1, 1, 0, 0, ⟨0, 0, 0⟩⟩
      (by decide),
    C5_empty_frontier_or_goal_initial.2 [['G']] 1 1 0 0 5 0 ⟨0, 0, 0⟩ ∅
      (by decide) (by decide)⟩

theorem C1_solve_optimal_witness :
    (Rect [['S', 'O', 'O', 'G']] 4 ∧ OneGoal [['S', 'O', 'O', 'G']] ∧
      initEngine [['S', 'O', 'O', 'G']] = some eC4 ∧
      (∃ p t, run eC4.map eC4.initial p = some t ∧
        is_goal eC4.goalX eC4.goalY t = true)) ∧
    ((∃ t, run eC4.map eC4.initial (solve eC4).1 = some t ∧
      is_goal eC4.goalX eC4.goalY t = true) ∧
      (solve eC4).1.length = goalDist eC4.map eC4.goalX eC4.goalY eC4.initial) :=
  ⟨⟨by unfold Rect; decide, by unfold OneGoal; decide, rfl,
      ⟨['R', 'R'], ⟨3, 0, 0⟩, rfl, rfl⟩⟩,
    C1_solve_optimal [['S', 'O', 'O', 'G']] eC4 4 (by unfold Rect; decide)
      (by unfold OneGoal; decide) rfl ⟨['R', 'R'], ⟨3, 0, 0⟩, rfl, rfl⟩⟩

theorem C10_path_replayable_witness :
    (Rect [['S', 'O', 'O', 'G']] 4 ∧ initEngine [['S', 'O', 'O', 'G']] = some eC4 ∧
      (solve eC4).1 ≠ []) ∧
    ((∃ t, run eC4.map eC4.initial (solve eC4).1 = some t ∧
      is_goal eC4.goalX eC4.goalY t = true) ∧
      (∀ p1 p2, (solve eC4).1 = p1 ++ p2 →
        ∃ u, run eC4.map eC4.initial p1 = some u)) :=
  ⟨⟨by unfold Rect; decide, rfl, by decide⟩,
    C10_path_replayable [['S', 'O', 'O', 'G']] eC4 4 (by unfold Rect; decide) rfl
      (by decide)⟩

end Bloxorz
